import Mathlib

/-!
# universalist: annotation discovery engine

A shallow embedding of `universalist.go` (package `universalist`) and the
properties of its scanner, aggregator, exclusion filter and renderer.

Go strings are embedded as lists of characters. The Go standard library
functions the program calls (`regexp`, `strings.SplitAfter`, `strings.Join`,
`path/filepath.Match`, `path/filepath.Walk`, `bufio.Scanner`, `os.Open`) are
embedded by their documented behaviour; each model says what it covers.
-/

set_option autoImplicit false

namespace Universalist

/-- Go `string`, as the list of its characters. -/
abbrev GoString := List Char

/-! ## Errors and outcomes -/

/-- The error values the program can produce or pass on. -/
inductive GoError where
  /-- `fmt.Errorf("Keyword %s not found", key)` -/
  | keywordNotFound (key : GoString)
  /-- `filepath.ErrBadPattern` -/
  | badPattern
  /-- an error of the operating system (`*os.PathError`), with its message -/
  | os (msg : GoString)
deriving DecidableEq, Repr

/-- Result of a Go function that returns `(value, error)` and may also panic. -/
inductive Outcome (α : Type) where
  | ok (a : α)
  | err (e : GoError)
  | panicked
deriving DecidableEq, Repr

/-- Equality of `(value, error)` results is decidable. -/
instance instDecidableEqExcept {α : Type} [DecidableEq α] : DecidableEq (Except GoError α)
  | Except.ok a, Except.ok b =>
    if h : a = b then isTrue (by rw [h]) else isFalse (fun hab => h (Except.ok.inj hab))
  | Except.error e, Except.error f =>
    if h : e = f then isTrue (by rw [h]) else isFalse (fun hef => h (Except.error.inj hef))
  | Except.ok _, Except.error _ => isFalse (fun h => Except.noConfusion h)
  | Except.error _, Except.ok _ => isFalse (fun h => Except.noConfusion h)

/-! ## Data model (`annotation`, `locationInfo`, `list`) -/

/-- Go `type annotation struct`. -/
structure annotation where
  Text : GoString
  Color : GoString
  Priority : Int
deriving DecidableEq, Repr

/-- Go `type locationInfo struct`; the field `at` is spelled `at_`. -/
structure locationInfo where
  at_ : annotation
  instruction : GoString
  filename : GoString
  Row : Int
deriving DecidableEq, Repr

/-- The zero value `annotation{}`. -/
def annotation.zero : annotation := { Text := [], Color := [], Priority := 0 }

/-- The zero value `locationInfo{}`. -/
def locationInfo.zero : locationInfo :=
  { at_ := annotation.zero, instruction := [], filename := [], Row := 0 }

/-- Go `type list map[string][]locationInfo`, as an association list with one
entry per key. Go ranges over a map in an unspecified order; the embedding
ranges in the stored order, and the properties below are stated per key. -/
abbrev list := List (GoString × List locationInfo)

/-- Map read `m[key]`: the stored slice, or the nil slice when the key is absent. -/
def list.get : list → GoString → List locationInfo
  | [], _ => []
  | (k, v) :: rest, key => if k = key then v else list.get rest key

/-- Map write `m[key] = v`: replaces the entry of `key`, or adds one. -/
def list.set : list → GoString → List locationInfo → list
  | [], key, v => [(key, v)]
  | (k, w) :: rest, key, v =>
    if k = key then (k, v) :: rest else (k, w) :: list.set rest key v

/-- The keys of a map, in stored order. -/
def list.keys (m : list) : List GoString := m.map Prod.fst

/-! ## `regexp`: the fragment of Go regular expressions the model covers

Literal characters, `.`, alternation `|` and groups `( )`. A pattern that uses
any other metacharacter (`\ + * ? [ ] { } ^ $`) is outside the model.
Matching is leftmost-first, as in Go: the leftmost position where the pattern
matches, and there the match a backtracking search finds first. -/

/-- Parsed regular expression. -/
inductive Regexp where
  | empty
  | lit (c : Char)
  | anyNotNL
  | cat (a b : Regexp)
  | alt (a b : Regexp)
  | group (r : Regexp)
deriving DecidableEq, Repr

/-- One open group while parsing: the finished alternatives and the pieces of
the alternative being read. -/
structure Frame where
  alts : List Regexp
  cur : List Regexp
deriving DecidableEq, Repr

/-- Concatenation of a sequence of pieces. -/
def mkCat : List Regexp → Regexp
  | [] => Regexp.empty
  | r :: rs => Regexp.cat r (mkCat rs)

/-- The alternation a frame stands for when it is closed. -/
def closeFrame (f : Frame) : Regexp :=
  f.alts.foldr Regexp.alt (mkCat f.cur)

/-- Metacharacters of Go's syntax that the model does not cover. -/
def unsupportedMeta : List Char :=
  ['\\', '+', '*', '?', '[', ']', '{', '}', '^', '$']

/-- The characters `regexp.QuoteMeta` escapes: every character with a special
meaning in a pattern. -/
def metaChars : List Char :=
  ['\\', '.', '+', '*', '?', '(', ')', '|', '[', ']', '{', '}', '^', '$']

/-- Left-to-right parse with a stack of open groups. -/
def parseLoop : List Char → Frame → List Frame → Option Regexp
  | [], top, [] => some (closeFrame top)
  | [], _, _ :: _ => none
  | c :: cs, top, stack =>
    if c = '(' then parseLoop cs { alts := [], cur := [] } (top :: stack)
    else if c = ')' then
      match stack with
      | [] => none
      | parent :: below =>
        parseLoop cs { parent with cur := parent.cur ++ [Regexp.group (closeFrame top)] } below
    else if c = '|' then
      parseLoop cs { alts := top.alts ++ [mkCat top.cur], cur := [] } stack
    else if c = '.' then
      parseLoop cs { top with cur := top.cur ++ [Regexp.anyNotNL] } stack
    else if c ∈ unsupportedMeta then none
    else parseLoop cs { top with cur := top.cur ++ [Regexp.lit c] } stack

/-- Go `regexp.MustCompile`: `none` when Go panics on the pattern (unbalanced
parentheses) or when the pattern is outside the modelled fragment. -/
def MustCompile (pattern : GoString) : Option Regexp :=
  parseLoop pattern { alts := [], cur := [] } []

/-- The remainders of `s` after each way the expression matches a prefix of
`s`, in the order a backtracking search tries them. -/
def matchAt : Regexp → List Char → List (List Char)
  | Regexp.empty, s => [s]
  | Regexp.lit _, [] => []
  | Regexp.lit c, d :: s => if d = c then [s] else []
  | Regexp.anyNotNL, [] => []
  | Regexp.anyNotNL, d :: s => if d = '\n' then [] else [s]
  | Regexp.cat a b, s => (matchAt a s).flatMap (fun t => matchAt b t)
  | Regexp.alt a b, s => matchAt a s ++ matchAt b s
  | Regexp.group r, s => matchAt r s

/-- Go `(*Regexp).FindString`: the text of the leftmost match, or `""` when
there is no match. -/
def FindString (re : Regexp) : GoString → GoString
  | [] => []
  | c :: cs =>
    match matchAt re (c :: cs) with
    | rest :: _ => (c :: cs).take ((c :: cs).length - rest.length)
    | [] => FindString re cs

/-! ## `strings` -/

/-- Go `strings.Join(elems, sep)`. -/
def Join : List GoString → GoString → GoString
  | [], _ => []
  | [a], _ => a
  | a :: b :: rest, sep => a ++ sep ++ Join (b :: rest) sep

/-- Go `strings.SplitAfter(s, sep)` for a one-character separator: the pieces
of `s`, each ending with the separator except the last. -/
def SplitAfter : GoString → Char → List GoString
  | [], _ => [[]]
  | c :: cs, sep =>
    if c = sep then [c] :: SplitAfter cs sep
    else
      match SplitAfter cs sep with
      | [] => [[c]]
      | p :: ps => (c :: p) :: ps

/-! ## The module state -/

/-- Go `type Universalister struct`. The writer is embedded as the sequence of
writes it has received. -/
structure Universalister where
  Path : GoString
  Keywords : List annotation
  ExcludedFiles : List GoString
  re : Regexp
  list : list
  writer : List GoString
deriving DecidableEq, Repr

/-- Go `defaultKeywords`. -/
def defaultKeywords : List annotation :=
  [ { Text := "TODO".toList, Color := "yellow".toList, Priority := 1 },
    { Text := "FIXME".toList, Color := "cyan".toList, Priority := 1 },
    { Text := "URGENT".toList, Color := "magenta".toList, Priority := 1 },
    { Text := "BUG".toList, Color := "red".toList, Priority := 1 } ]

/-- Go `makeRegexp`: the keyword texts joined with `|` inside one group,
compiled as they are. -/
def makeRegexp (keywords : List annotation) : Option Regexp :=
  let keys := keywords.map (fun keyword => keyword.Text)
  let pattern := "(".toList ++ (Join keys "|".toList ++ ")".toList)
  MustCompile pattern

/-- Go `(*Universalister).getKeyword`. -/
def getKeyword (ul : Universalister) (key : GoString) : Option annotation :=
  ul.Keywords.find? (fun kw => kw.Text = key)

/-- Go `(*Universalister).getMatchedAnnotationLocations`. -/
def getMatchedAnnotationLocations (ul : Universalister) (line filename : GoString)
    (row : Int) : Except GoError locationInfo :=
  let key := FindString ul.re line
  if key = [] then
    Except.ok locationInfo.zero
  else
    let lineParts := SplitAfter line ':'
    let instructions : GoString :=
      match lineParts with
      | _ :: second :: _ => second
      | _ => []
    match getKeyword ul key with
    | none => Except.error (GoError.keywordNotFound key)
    | some kw =>
      Except.ok { at_ := kw, instruction := instructions, filename := filename, Row := row }

/-- The scanning loop of `searchKeywordsInFile`: one step per line the scanner
yields, with the running row number and the map built so far. -/
def scanLines (ul : Universalister) (filename : GoString) :
    List GoString → Int → list → list
  | [], _, acc => acc
  | line :: rest, row, acc =>
    match getMatchedAnnotationLocations ul line filename row with
    | Except.error _ => scanLines ul filename rest (row + 1) acc
    | Except.ok loc =>
      scanLines ul filename rest (row + 1)
        (acc.set loc.at_.Text (acc.get loc.at_.Text ++ [loc]))

/-! ## `path/filepath.Match` (Unix)

The algorithm of Go's `path/filepath/match.go` (`Match`, `scanChunk`,
`matchChunk`, `getEsc`). A pattern is cut into chunks at the `*` outside
brackets; a chunk is matched at the first position where it fits and the match
is never revisited; `*` and `?` do not match the separator `/`. `matchChunk`
reads its chunk to the end even after the match has failed, so a syntax error
gives `ErrBadPattern` when it lies in a chunk that matching reaches; the
chunks after a failed match are not read. -/

/-- Go `getEsc`: a possibly escaped character of a character class, and what
follows it; the class may not end there. -/
def getEsc (chunk : List Char) : Except GoError (Char × List Char) :=
  match chunk with
  | [] => Except.error GoError.badPattern
  | c :: rest =>
    if c = '-' ∨ c = ']' then Except.error GoError.badPattern
    else
      match (if c = '\\' then rest else c :: rest) with
      | [] => Except.error GoError.badPattern
      | r :: nchunk =>
        if nchunk = [] then Except.error GoError.badPattern else Except.ok (r, nchunk)

/-- The ranges of a character class up to its closing bracket (the loop of
`matchChunk` for `[`), with the number of ranges read so far. The first
argument bounds the number of ranges; the length of the chunk is enough. -/
def parseRanges : Nat → List Char → Nat → Except GoError (List (Char × Char) × List Char)
  | 0, _, _ => Except.error GoError.badPattern
  | fuel + 1, chunk, nrange =>
    if chunk.head? = some ']' ∧ 0 < nrange then Except.ok ([], chunk.tail)
    else
      match getEsc chunk with
      | Except.error e => Except.error e
      | Except.ok (lo, afterLo) =>
        match (if afterLo.head? = some '-' then getEsc afterLo.tail
               else Except.ok (lo, afterLo)) with
        | Except.error e => Except.error e
        | Except.ok (hi, afterHi) =>
          match parseRanges fuel afterHi (nrange + 1) with
          | Except.error e => Except.error e
          | Except.ok (ranges, rest) => Except.ok ((lo, hi) :: ranges, rest)

/-- Whether a character lies in one of the ranges of a class. -/
def inRanges (ranges : List (Char × Char)) (r : Char) : Bool :=
  ranges.any (fun range => decide (range.1 ≤ r) && decide (r ≤ range.2))

/-- The scanning loop of Go `scanChunk`: the chunk up to the first `*` outside
brackets, and what follows it. A backslash takes the next character with it. -/
def chunkSplit : Bool → List Char → List Char × List Char
  | _, [] => ([], [])
  | inrange, c :: cs =>
    if c = '\\' then
      match cs with
      | [] => ([c], [])
      | d :: ds => (c :: d :: (chunkSplit inrange ds).1, (chunkSplit inrange ds).2)
    else if c = '[' then (c :: (chunkSplit true cs).1, (chunkSplit true cs).2)
    else if c = ']' then (c :: (chunkSplit false cs).1, (chunkSplit false cs).2)
    else if c = '*' ∧ inrange = false then ([], c :: cs)
    else (c :: (chunkSplit inrange cs).1, (chunkSplit inrange cs).2)

/-- What Go `scanChunk` returns. -/
structure Scanned where
  star : Bool
  chunk : List Char
  rest : List Char
deriving DecidableEq, Repr

/-- Go `scanChunk`: the leading stars are dropped, then the chunk is cut off. -/
def scanChunk (pattern : List Char) : Scanned :=
  { star := decide (pattern.head? = some '*')
    chunk := (chunkSplit false (pattern.dropWhile (fun c => c == '*'))).1
    rest := (chunkSplit false (pattern.dropWhile (fun c => c == '*'))).2 }

/-- One turn of the loop of Go `matchChunk`, on the first character `c` of the
chunk, the chunk after it and the character `r` read from the name (`none`
once the match has failed): the chunk left after the term, and whether the
term fits `r`. -/
def matchOne (c : Char) (chunk : List Char) (r : Option Char) :
    Except GoError (List Char × Bool) :=
  if c = '[' then
    match parseRanges (chunk.length + 1)
        (if chunk.head? = some '^' then chunk.tail else chunk) 0 with
    | Except.error e => Except.error e
    | Except.ok (ranges, after) =>
      match r with
      | none => Except.ok (after, false)
      | some x =>
        Except.ok (after, inRanges ranges x != decide (chunk.head? = some '^'))
  else if c = '?' then Except.ok (chunk, decide (r ≠ none ∧ r ≠ some '/'))
  else if c = '\\' then
    match chunk with
    | [] => Except.error GoError.badPattern
    | d :: after => Except.ok (after, decide (r = some d))
  else Except.ok (chunk, decide (r = some c))

/-- The loop of Go `matchChunk` with its flag `failed`: once the name is used
up or a term does not fit, the name is no longer read and the rest of the chunk
is only checked for syntax. The first argument bounds the number of turns; the
length of the chunk is enough. -/
def matchChunkLoop : Nat → List Char → List Char → Bool →
    Except GoError (Option (List Char))
  | _, [], s, failed => Except.ok (if failed then none else some s)
  | 0, _ :: _, _, _ => Except.error GoError.badPattern
  | fuel + 1, c :: chunk, s, failed =>
    match matchOne c chunk (if failed then none else s.head?) with
    | Except.error e => Except.error e
    | Except.ok (after, fits) =>
      if failed = true ∨ s = [] then matchChunkLoop fuel after s true
      else matchChunkLoop fuel after s.tail (!fits)

/-- Go `matchChunk(chunk, s)`: the rest of `s` when the chunk matches the
beginning of `s`, `none` when it does not. -/
def matchChunk (fuel : Nat) (chunk s : List Char) : Except GoError (Option (List Char)) :=
  matchChunkLoop fuel chunk s false

/-- The loop of Go `Match` after a star: the chunk is tried after skipping
`i + 1` characters, none of them the separator; in the last chunk a match that
leaves part of the name is passed over. -/
def starSearch (chunk : List Char) (lastChunk : Bool) :
    List Char → Except GoError (Option (List Char))
  | [] => Except.ok none
  | c :: rest =>
    if c = '/' then Except.ok none
    else
      match matchChunk (chunk.length + 1) chunk rest with
      | Except.error e => Except.error e
      | Except.ok none => starSearch chunk lastChunk rest
      | Except.ok (some t) =>
        if lastChunk = true ∧ t ≠ [] then starSearch chunk lastChunk rest
        else Except.ok (some t)

/-- One turn of the loop of Go `Match` on a chunk that is not a lone trailing
star: the name left for the rest of the pattern, or `none` when `Match` returns
false. -/
def advance (sc : Scanned) (name : List Char) : Except GoError (Option (List Char)) :=
  match matchChunk (sc.chunk.length + 1) sc.chunk name with
  | Except.error e => Except.error e
  | Except.ok (some t) =>
    if t = [] ∨ sc.rest ≠ [] then Except.ok (some t)
    else if sc.star = true then starSearch sc.chunk (decide (sc.rest = [])) name
    else Except.ok none
  | Except.ok none =>
    if sc.star = true then starSearch sc.chunk (decide (sc.rest = [])) name
    else Except.ok none

/-- The loop of Go `Match` over the chunks of the pattern. The first argument
bounds the number of chunks; the length of the pattern is enough. -/
def matchLoop : Nat → List Char → List Char → Except GoError Bool
  | _, [], name => Except.ok (decide (name = []))
  | 0, _ :: _, _ => Except.error GoError.badPattern
  | fuel + 1, c :: cs, name =>
    if (scanChunk (c :: cs)).star = true ∧ (scanChunk (c :: cs)).chunk = [] then
      Except.ok (decide ('/' ∉ name))
    else
      match advance (scanChunk (c :: cs)) name with
      | Except.error e => Except.error e
      | Except.ok none => Except.ok false
      | Except.ok (some t) => matchLoop fuel (scanChunk (c :: cs)).rest t

/-- Go `filepath.Match(pattern, name)`. -/
def Match (pattern name : GoString) : Except GoError Bool :=
  matchLoop (pattern.length + 1) pattern name

/-- The syntax check of one term of a chunk: the chunk after the term, or
`none` when the term is malformed. -/
def checkOne (c : Char) (chunk : List Char) : Option (List Char) :=
  if c = '[' then
    match parseRanges (chunk.length + 1)
        (if chunk.head? = some '^' then chunk.tail else chunk) 0 with
    | Except.error _ => none
    | Except.ok (_, after) => some after
  else if c = '\\' then
    match chunk with
    | [] => none
    | _ :: after => some after
  else some chunk

/-- Whether every term of a chunk is well formed. -/
def checkChunk : Nat → List Char → Bool
  | _, [] => true
  | 0, _ :: _ => false
  | fuel + 1, c :: chunk =>
    match checkOne c chunk with
    | none => false
    | some after => checkChunk fuel after

/-- Whether every chunk of a pattern is well formed. -/
def wellFormedLoop : Nat → List Char → Bool
  | _, [] => true
  | 0, _ :: _ => false
  | fuel + 1, c :: cs =>
    checkChunk ((scanChunk (c :: cs)).chunk.length + 1) (scanChunk (c :: cs)).chunk &&
      wellFormedLoop fuel (scanChunk (c :: cs)).rest

/-- Whether a glob pattern is syntactically valid: each of its chunks is. -/
def wellFormed (pattern : GoString) : Bool :=
  wellFormedLoop (pattern.length + 1) pattern

/-- Go `isExcluded`, as a loop over the patterns left to try. -/
def isExcludedLoop : List GoString → GoString → Except GoError Bool
  | [], _ => Except.ok false
  | pattern :: rest, path =>
    match Match pattern path with
    | Except.error e => Except.error e
    | Except.ok matched => if matched then Except.ok true else isExcludedLoop rest path

/-- Go `isExcluded(ul, path)`. -/
def isExcluded (ul : Universalister) (path : GoString) : Except GoError Bool :=
  isExcludedLoop ul.ExcludedFiles path

/-! ## The environment: file system and colour library -/

/-- Go `os.FileInfo`, as far as the program reads it. -/
structure FileInfo where
  name : GoString
  isDir : Bool
deriving DecidableEq, Repr

/-- An opened file: what `f.Stat()` returns and the lines `bufio.Scanner`
yields from it, in order. -/
structure OpenedFile where
  stat : Except GoError FileInfo
  lines : List GoString

/-- One call `filepath.Walk` makes to its callback: the path, the file info
(`none` for a nil `os.FileInfo`) and the error of the traversal, if any. -/
structure WalkEntry where
  path : GoString
  info : Option FileInfo
  err : Option GoError
deriving DecidableEq, Repr

/-- What the program reaches outside itself: `os.Open`, the sequence of calls
`filepath.Walk` makes from a root for as long as the callback returns nil, and
`ansi.Color`. -/
structure Env where
  Open : GoString → Except GoError OpenedFile
  walk : GoString → List WalkEntry
  ansiColor : GoString → GoString → GoString

/-! ## Scanner, aggregator, renderer -/

/-- Go `(*Universalister).searchKeywordsInFile`. -/
def searchKeywordsInFile (env : Env) (ul : Universalister) (path : GoString) :
    Except GoError list :=
  match env.Open path with
  | Except.error e => Except.error e
  | Except.ok f =>
    match f.stat with
    | Except.error e => Except.error e
    | Except.ok stat => Except.ok (scanLines ul stat.name f.lines 1 [])

/-- The merge loop of `searchKeywords`: for each `key, loc` of `localList`,
`list[key] = append(list[key], loc...)`. -/
def mergeInto (acc : list) : list → list
  | [] => acc
  | (key, loc) :: rest => mergeInto (acc.set key (acc.get key ++ loc)) rest

/-- The callback `searchKeywords` hands to `filepath.Walk`, on the map built so
far. The `err` argument of the callback is overwritten by the result of
`isExcluded` before it is read. -/
def walkFn (env : Env) (ul : Universalister) (acc : list) (entry : WalkEntry) :
    Outcome list :=
  match isExcluded ul entry.path with
  | Except.error e => Outcome.err e
  | Except.ok excluded =>
    match entry.info with
    | none => Outcome.panicked
    | some info =>
      if !info.isDir && !excluded then
        match searchKeywordsInFile env ul entry.path with
        | Except.error e => Outcome.err e
        | Except.ok localList => Outcome.ok (mergeInto acc localList)
      else Outcome.ok acc

/-- Go `filepath.Walk` over the entries left to visit: it stops at the first
entry for which the callback does not return nil. -/
def walkLoop (env : Env) (ul : Universalister) : List WalkEntry → list → Outcome list
  | [], acc => Outcome.ok acc
  | entry :: rest, acc =>
    match walkFn env ul acc entry with
    | Outcome.ok acc1 => walkLoop env ul rest acc1
    | Outcome.err e => Outcome.err e
    | Outcome.panicked => Outcome.panicked

/-- Go `(*Universalister).searchKeywords`: on success the module with the new
`list`; otherwise the module is left as it was. -/
def searchKeywords (env : Env) (ul : Universalister) : Outcome Universalister :=
  match walkLoop env ul (env.walk ul.Path) [] with
  | Outcome.ok l => Outcome.ok { ul with list := l }
  | Outcome.err e => Outcome.err e
  | Outcome.panicked => Outcome.panicked

/-- Go `%d` of an `int`. -/
def formatInt (n : Int) : GoString :=
  if n < 0 then '-' :: (Nat.repr n.natAbs).toList else (Nat.repr n.toNat).toList

/-- Go `locationInfo.generateOutput`: `fmt.Sprintf("  - %s\t %s:%d\n", ...)`. -/
def generateOutput (li : locationInfo) : GoString :=
  "  - ".toList ++ li.instruction ++ "\t ".toList ++ li.filename ++ ":".toList
    ++ formatInt li.Row ++ "\n".toList

/-- Go `fmt.Fprintln(w, s)`: one write of `s` and a newline. -/
def Fprintln (w : List GoString) (s : GoString) : List GoString :=
  w ++ [s ++ "\n".toList]

/-- The inner loop of `showOutput` over the records of one keyword. -/
def showLocations : List locationInfo → List GoString → List GoString
  | [], w => w
  | loc :: rest, w =>
    if loc.Row ≠ 0 then showLocations rest (Fprintln w (generateOutput loc))
    else showLocations rest w

/-- The outer loop of `showOutput` over the entries of the map. -/
def showEntries (env : Env) (ul : Universalister) : list → List GoString → List GoString
  | [], w => w
  | (key, locations) :: rest, w =>
    match getKeyword ul key with
    | none => showEntries env ul rest w
    | some kw =>
      showEntries env ul rest (showLocations locations (Fprintln w (env.ansiColor key kw.Color)))

/-- Go `(*Universalister).showOutput`. -/
def showOutput (env : Env) (ul : Universalister) : Universalister :=
  { ul with writer := showEntries env ul ul.list ul.writer }

/-- Go `(*Universalister).Start`. -/
def Start (env : Env) (ul : Universalister) : Outcome Universalister :=
  match searchKeywords env ul with
  | Outcome.err e => Outcome.err e
  | Outcome.panicked => Outcome.panicked
  | Outcome.ok ul1 => Outcome.ok (showOutput env ul1)

/-- Go `New`, from the point where the configuration is settled: `keywords` and
`excluded` are what `Keywords` and `ExcludedFiles` hold after the defaults and
the configuration file, `path` is what `WithPath` sets; `re` is then
`makeRegexp(ul.Keywords)`. -/
def New (keywords : List annotation) (excluded : List GoString) (path : GoString) :
    Option Universalister :=
  match makeRegexp keywords with
  | none => none
  | some re =>
    some { Path := path, Keywords := keywords, ExcludedFiles := excluded, re := re,
           list := [], writer := [] }

/-! ## Reference definitions the properties are stated with -/

/-- One step of the scanning loop on a line that gave a record:
`list[loc.at.Text] = append(list[loc.at.Text], loc)`. -/
def addRecord (m : list) (loc : locationInfo) : list :=
  m.set loc.at_.Text (m.get loc.at_.Text ++ [loc])

/-- The records `getMatchedAnnotationLocations` returns without error for the
lines of a file, in line order, the first line having row number `row`. -/
def lineRecords (ul : Universalister) (filename : GoString) :
    List GoString → Int → List locationInfo
  | [], _ => []
  | line :: rest, row =>
    match getMatchedAnnotationLocations ul line filename row with
    | Except.error _ => lineRecords ul filename rest (row + 1)
    | Except.ok loc => loc :: lineRecords ul filename rest (row + 1)

/-- An entry of the walk that is a file (not a directory) whose path the
exclusion patterns match. -/
def excludedFile (ul : Universalister) (entry : WalkEntry) : Bool :=
  match entry.info with
  | none => false
  | some info => !info.isDir && decide (isExcluded ul entry.path = Except.ok true)

/-- An entry of the walk that is a directory. -/
def isDirectory (entry : WalkEntry) : Bool :=
  match entry.info with
  | none => false
  | some info => info.isDir

/-- An entry of the walk whose file is scanned: not a directory, not excluded. -/
def scanned (ul : Universalister) (entry : WalkEntry) : Bool :=
  match entry.info with
  | none => false
  | some info => !info.isDir && decide (isExcluded ul entry.path = Except.ok false)

/-- The environment with only the walked entries that satisfy `keep`. -/
def Env.restrictWalk (env : Env) (keep : WalkEntry → Bool) : Env :=
  { env with walk := fun root => (env.walk root).filter keep }

/-- The environment in which the traversal reports no error for any entry. -/
def Env.withoutErrors (env : Env) : Env :=
  { env with walk := fun root =>
      (env.walk root).map (fun entry => { entry with err := none }) }

/-- The records of keyword `key` that the scan of the file of a walk entry
returns (none when the file cannot be scanned). -/
def fileRecords (env : Env) (ul : Universalister) (key : GoString) (entry : WalkEntry) :
    List locationInfo :=
  match searchKeywordsInFile env ul entry.path with
  | Except.ok l => l.get key
  | Except.error _ => []

/-- A text without any character that has a special meaning in a pattern. -/
def plain (s : GoString) : Prop := ∀ c ∈ s, c ∉ metaChars

/-- The characters of `plain` texts are decidable. -/
instance instDecidablePlain (s : GoString) : Decidable (plain s) := by
  unfold plain
  infer_instance

/-- The alternation of literal texts, in their order. -/
def altOf : List GoString → Regexp
  | [] => Regexp.empty
  | [t] => mkCat (t.map Regexp.lit)
  | t :: u :: rest => Regexp.alt (mkCat (t.map Regexp.lit)) (altOf (u :: rest))

/-- The remainder of `s` after the literal text `t` when `s` starts with it. -/
def literalRest (s : GoString) (t : GoString) : List (List Char) :=
  if t.isPrefixOf s then [s.drop t.length] else []

/-- Literal search in the words of the specification: at the leftmost
position of `line` where one of the texts starts, the first such text in the
order of the list; empty when none of the texts occurs in `line`. -/
def findLiteral (texts : List GoString) : GoString → GoString
  | [] => []
  | c :: cs =>
    match texts.find? (fun t => t.isPrefixOf (c :: cs)) with
    | some t => t
    | none => findLiteral texts cs

/-- The first annotation of the registry whose text is `key`, if any. -/
def firstRegistered : List annotation → GoString → Option annotation
  | [], _ => none
  | kw :: rest, key => if kw.Text = key then some kw else firstRegistered rest key

/-- What the renderer is to write for one entry of the map, in the words of
the specification: nothing for a key that is not registered; otherwise the
label in the colour of the first annotation registered with that text, then
one entry per record whose row is not 0, in order. Each write ends with the
newline `Fprintln` adds. -/
def keywordBlock (env : Env) (ul : Universalister) (entry : GoString × List locationInfo) :
    List GoString :=
  match firstRegistered ul.Keywords entry.1 with
  | none => []
  | some kw =>
    (env.ansiColor entry.1 kw.Color ++ "\n".toList) ::
      (entry.2.filter (fun loc => decide (loc.Row ≠ 0))).map
        (fun loc => generateOutput loc ++ "\n".toList)

/-- The text after the first occurrence of `key` in `line` (empty when `key`
does not occur). -/
def afterKeyword (key : GoString) : GoString → GoString
  | [] => []
  | c :: cs => if key.isPrefixOf (c :: cs) then (c :: cs).drop key.length else afterKeyword key cs

/-- Everything after the first colon of a text; empty when it has no colon. -/
def afterFirstColon (s : GoString) : GoString :=
  (s.dropWhile (fun c => c != ':')).drop 1

/-- The instruction text in the words of the specification: everything after
the first colon that follows the keyword on the line. -/
def instructionAfterKeyword (key line : GoString) : GoString :=
  afterFirstColon (afterKeyword key line)

/-! ## Example inputs -/

/-- The module `New` builds from the default keywords. -/
def defaultModule : Universalister :=
  { Path := "./".toList, Keywords := defaultKeywords, ExcludedFiles := [],
    re := (makeRegexp defaultKeywords).getD Regexp.empty, list := [], writer := [] }

/-- A module with the given keyword texts, exclusion patterns and root path. -/
def moduleWith (texts : List String) (excluded : List String) (path : String) :
    Universalister :=
  let keywords : List annotation :=
    texts.map (fun t => { Text := t.toList, Color := "red".toList, Priority := 1 })
  { Path := path.toList, Keywords := keywords, ExcludedFiles := excluded.map String.toList,
    re := (makeRegexp keywords).getD Regexp.empty, list := [], writer := [] }

/-- A regular file of the given base name. -/
def fileInfo (name : String) : FileInfo := { name := name.toList, isDir := false }

/-- A directory of the given base name. -/
def dirInfo (name : String) : FileInfo := { name := name.toList, isDir := true }

/-- A file system given by a table of files (path, base name, lines) and the
entries the walk visits from any root; `ansi.Color` is left as the identity on
the text. Opening a path that is not in the table fails. -/
def tableEnv (files : List (String × String × List String)) (entries : List WalkEntry) : Env :=
  { Open := fun path =>
      match files.find? (fun f => decide (f.1.toList = path)) with
      | none => Except.error (GoError.os "no such file or directory".toList)
      | some f => Except.ok { stat := Except.ok (fileInfo f.2.1), lines := f.2.2.map String.toList }
    walk := fun _ => entries
    ansiColor := fun text _ => text }

/-- The walk entry of a path visited without error. -/
def visited (path : String) (info : FileInfo) : WalkEntry :=
  { path := path.toList, info := some info, err := none }

/-- The tree of the end-to-end scenario: `a.go` with `// BUG: null deref` on
line 3 and `b.go` with `// TODO: refactor` on line 1. -/
def scenarioEnv : Env :=
  tableEnv [("a.go", "a.go", ["package a", "", "// BUG: null deref"]),
            ("b.go", "b.go", ["// TODO: refactor"])]
    [visited "." (dirInfo "."), visited "a.go" (fileInfo "a.go"),
     visited "b.go" (fileInfo "b.go")]

/-- A root that does not exist: `filepath.Walk` calls the callback once, with
a nil file info and the error of `os.Lstat`. -/
def missingRootEnv : Env :=
  tableEnv []
    [{ path := "/nonexistent".toList, info := none,
       err := some (GoError.os "lstat /nonexistent: no such file or directory".toList) }]

/-- A tree with a directory that cannot be read: `filepath.Walk` calls the
callback for it with its file info and the error, and goes on to `a.go`. -/
def lockedDirEnv : Env :=
  tableEnv [("a.go", "a.go", ["// TODO: one"])]
    [visited "." (dirInfo "."),
     { path := "locked".toList, info := some (dirInfo "locked"),
       err := some (GoError.os "open locked: permission denied".toList) },
     visited "a.go" (fileInfo "a.go")]

/-! # Properties -/

/-! ## Maps -/

theorem list.get_set_self (m : list) (k : GoString) (v : List locationInfo) :
    (m.set k v).get k = v := by
  induction m with
  | nil => simp [list.set, list.get]
  | cons e rest ih =>
    obtain ⟨k1, w⟩ := e
    by_cases h : k1 = k
    · simp [list.set, list.get, h]
    · simp [list.set, list.get, h, ih]

theorem list.get_set_ne (m : list) (k k2 : GoString) (v : List locationInfo) (hne : k ≠ k2) :
    (m.set k v).get k2 = m.get k2 := by
  induction m with
  | nil => simp [list.set, list.get, hne]
  | cons e rest ih =>
    obtain ⟨k1, w⟩ := e
    by_cases h : k1 = k
    · subst h
      simp [list.set, list.get, hne]
    · by_cases h2 : k1 = k2
      · subst h2
        simp [list.set, list.get, h]
      · simp [list.set, list.get, h, h2, ih]

theorem list.keys_set (m : list) (k : GoString) (v : List locationInfo) :
    (m.set k v).keys = if k ∈ m.keys then m.keys else m.keys ++ [k] := by
  induction m with
  | nil => simp [list.set, list.keys]
  | cons e rest ih =>
    obtain ⟨k1, w⟩ := e
    by_cases h : k1 = k
    · subst h
      simp [list.set, list.keys]
    · have h2 : ¬ k = k1 := fun hk => h hk.symm
      simp only [list.keys] at ih
      simp only [list.set, list.keys, h, if_false, List.map_cons, List.mem_cons, h2, false_or, ih]
      split <;> simp

theorem list.keys_set_nodup (m : list) (k : GoString) (v : List locationInfo)
    (hm : m.keys.Nodup) : (m.set k v).keys.Nodup := by
  rw [list.keys_set]
  split
  · exact hm
  · rename_i hk
    rw [List.nodup_append]
    refine ⟨hm, List.nodup_singleton k, ?_⟩
    intro a ha hb
    simp at hb
    subst hb
    exact hk ha

theorem list.get_of_not_mem_keys (m : list) (k : GoString) (hk : k ∉ m.keys) :
    m.get k = [] := by
  induction m with
  | nil => rfl
  | cons e rest ih =>
    obtain ⟨k1, w⟩ := e
    simp only [list.keys, List.map_cons, List.mem_cons, not_or] at hk
    have h : ¬ k1 = k := fun h => hk.1 h.symm
    simp only [list.get, h, if_false]
    exact ih hk.2

/-! ## The line matcher -/

theorem FindString_infix (re : Regexp) (s : GoString) : FindString re s <:+: s := by
  induction s with
  | nil => simp [FindString]
  | cons c cs ih =>
    unfold FindString
    split
    · exact (List.take_prefix _ _).isInfix
    · exact ih.trans (List.suffix_cons c cs).isInfix

theorem getKeyword_some (ul : Universalister) (key : GoString) (kw : annotation)
    (h : getKeyword ul key = some kw) : kw ∈ ul.Keywords ∧ kw.Text = key := by
  unfold getKeyword at h
  refine ⟨List.mem_of_find?_eq_some h, ?_⟩
  have := List.find?_some h
  simpa using this

/-- The three results of the line matcher: the zero record when the pattern
finds nothing, an error when the text found is not registered, and otherwise a
record that carries the registered annotation and the row. -/
theorem getMatched_cases (ul : Universalister) (line filename : GoString) (row : Int) :
    (FindString ul.re line = [] ∧
      getMatchedAnnotationLocations ul line filename row = Except.ok locationInfo.zero) ∨
    (FindString ul.re line ≠ [] ∧ getKeyword ul (FindString ul.re line) = none ∧
      getMatchedAnnotationLocations ul line filename row =
        Except.error (GoError.keywordNotFound (FindString ul.re line))) ∨
    (FindString ul.re line ≠ [] ∧ ∃ kw, getKeyword ul (FindString ul.re line) = some kw ∧
      getMatchedAnnotationLocations ul line filename row =
        Except.ok { at_ := kw, instruction := (SplitAfter line ':').getD 1 [],
                    filename := filename, Row := row }) := by
  by_cases hkey : FindString ul.re line = []
  · left
    simp [getMatchedAnnotationLocations, hkey]
  · right
    cases hkw : getKeyword ul (FindString ul.re line) with
    | none =>
      left
      simp [getMatchedAnnotationLocations, hkey, hkw]
    | some kw =>
      right
      refine ⟨hkey, kw, rfl, ?_⟩
      simp only [getMatchedAnnotationLocations, hkey, if_false, hkw]
      congr 2
      rcases SplitAfter line ':' with _ | ⟨p, _ | ⟨q, ps⟩⟩ <;> simp

/-! ## The scanning loop -/

theorem scanLines_eq_foldl (ul : Universalister) (filename : GoString) (lines : List GoString)
    (row : Int) (acc : list) :
    scanLines ul filename lines row acc =
      (lineRecords ul filename lines row).foldl addRecord acc := by
  induction lines generalizing row acc with
  | nil => rfl
  | cons line rest ih =>
    unfold scanLines lineRecords
    cases h : getMatchedAnnotationLocations ul line filename row with
    | error e => simp [ih]
    | ok loc => simp [ih, addRecord]

theorem foldl_addRecord_get (recs : List locationInfo) (acc : list) (k : GoString) :
    (recs.foldl addRecord acc).get k =
      acc.get k ++ recs.filter (fun loc => decide (loc.at_.Text = k)) := by
  induction recs generalizing acc with
  | nil => simp
  | cons loc rest ih =>
    rw [List.foldl_cons, ih]
    by_cases h : loc.at_.Text = k
    · subst h
      simp [addRecord, list.get_set_self]
    · simp [addRecord, list.get_set_ne _ _ _ _ h, h]

theorem foldl_addRecord_keys_nodup (recs : List locationInfo) (acc : list)
    (hacc : acc.keys.Nodup) : (recs.foldl addRecord acc).keys.Nodup := by
  induction recs generalizing acc with
  | nil => simpa using hacc
  | cons loc rest ih =>
    rw [List.foldl_cons]
    exact ih _ (list.keys_set_nodup _ _ _ hacc)

theorem scanLines_get (ul : Universalister) (filename : GoString) (lines : List GoString)
    (row : Int) (acc : list) (k : GoString) :
    (scanLines ul filename lines row acc).get k =
      acc.get k ++ (lineRecords ul filename lines row).filter
        (fun loc => decide (loc.at_.Text = k)) := by
  rw [scanLines_eq_foldl, foldl_addRecord_get]

theorem lineRecords_append (ul : Universalister) (filename : GoString)
    (pre post : List GoString) (row : Int) :
    lineRecords ul filename (pre ++ post) row =
      lineRecords ul filename pre row ++ lineRecords ul filename post (row + pre.length) := by
  induction pre generalizing row with
  | nil => simp [lineRecords]
  | cons line rest ih =>
    simp only [List.cons_append, lineRecords, List.length_cons, Nat.cast_add, Nat.cast_one]
    have hrow : row + 1 + (rest.length : Int) = row + ((rest.length : Int) + 1) := by ring
    cases h : getMatchedAnnotationLocations ul line filename row with
    | error e => simp [ih, hrow]
    | ok loc => simp [ih, hrow]

theorem searchKeywordsInFile_eq (env : Env) (ul : Universalister) (path : GoString)
    (info : FileInfo) (lines : List GoString)
    (hopen : env.Open path = Except.ok { stat := Except.ok info, lines := lines }) :
    searchKeywordsInFile env ul path = Except.ok (scanLines ul info.name lines 1 []) := by
  simp [searchKeywordsInFile, hopen]

theorem SplitAfter_no_sep (s : GoString) (sep : Char) (h : sep ∉ s) :
    SplitAfter s sep = [s] := by
  induction s with
  | nil => rfl
  | cons c cs ih =>
    simp only [List.mem_cons, not_or] at h
    have hc : ¬ c = sep := fun hc => h.1 hc.symm
    simp [SplitAfter, hc, ih h.2]

theorem SplitAfter_first (a b : GoString) (sep : Char) (h : sep ∉ a) :
    SplitAfter (a ++ sep :: b) sep = (a ++ [sep]) :: SplitAfter b sep := by
  induction a with
  | nil => simp [SplitAfter]
  | cons c cs ih =>
    simp only [List.mem_cons, not_or] at h
    have hc : ¬ c = sep := fun hc => h.1 hc.symm
    simp [SplitAfter, hc, ih h.2]

/-- The instruction of a record is the second piece `strings.SplitAfter` cuts
the line into: empty without a colon, and otherwise the text after the first
colon of the line up to and including the next colon, or up to the end of the
line when there is no other colon. -/
theorem instruction_second_piece (ul : Universalister) (line filename : GoString) (row : Int)
    (loc : locationInfo) (hfound : FindString ul.re line ≠ [])
    (hok : getMatchedAnnotationLocations ul line filename row = Except.ok loc) :
    (':' ∉ line → loc.instruction = []) ∧
    (∀ a b, line = a ++ ':' :: b → ':' ∉ a → ':' ∉ b → loc.instruction = b) ∧
    (∀ a b c, line = a ++ ':' :: (b ++ ':' :: c) → ':' ∉ a → ':' ∉ b →
      loc.instruction = b ++ [':']) := by
  have hinstr : loc.instruction = (SplitAfter line ':').getD 1 [] := by
    rcases getMatched_cases ul line filename row with h | h | h
    · exact absurd h.1 hfound
    · rw [h.2.2] at hok
      cases hok
    · obtain ⟨_, kw, _, heq⟩ := h
      rw [heq] at hok
      cases hok
      rfl
  refine ⟨?_, ?_, ?_⟩
  · intro h
    rw [hinstr, SplitAfter_no_sep _ _ h]
    rfl
  · intro a b hline ha hb
    rw [hinstr, hline, SplitAfter_first _ _ _ ha, SplitAfter_no_sep _ _ hb]
    rfl
  · intro a b c hline ha hb
    rw [hinstr, hline, SplitAfter_first _ _ _ ha, SplitAfter_first _ _ _ hb]
    rfl

theorem foldl_addRecord_zero (n : Nat) (xs : List locationInfo) :
    (List.replicate n locationInfo.zero).foldl addRecord [([], xs)] =
      [([], xs ++ List.replicate n locationInfo.zero)] := by
  induction n generalizing xs with
  | zero => simp
  | succ n ih =>
    have hstep : addRecord [([], xs)] locationInfo.zero = [([], xs ++ [locationInfo.zero])] := by
      simp [addRecord, list.set, list.get, locationInfo.zero, annotation.zero]
    simp only [List.replicate_succ, List.foldl_cons, hstep, ih]
    simp

theorem foldl_addRecord_zero_nil (n : Nat) :
    (List.replicate n locationInfo.zero).foldl addRecord [] =
      if n = 0 then [] else [([], List.replicate n locationInfo.zero)] := by
  cases n with
  | zero => simp
  | succ n =>
    have hstep : addRecord [] locationInfo.zero = [([], [locationInfo.zero])] := by
      simp [addRecord, list.set, list.get, locationInfo.zero, annotation.zero]
    simp only [List.replicate_succ, List.foldl_cons, hstep, foldl_addRecord_zero]
    simp

theorem lineRecords_no_keyword (ul : Universalister) (filename : GoString)
    (lines : List GoString) (row : Int)
    (hno : ∀ line ∈ lines, ∀ kw ∈ ul.Keywords, ¬ kw.Text <:+: line) :
    lineRecords ul filename lines row =
      List.replicate (lines.countP (fun line => decide (FindString ul.re line = [])))
        locationInfo.zero := by
  induction lines generalizing row with
  | nil => rfl
  | cons line rest ih =>
    have hrest := ih (row + 1) (fun l hl => hno l (List.mem_cons_of_mem _ hl))
    unfold lineRecords
    rcases getMatched_cases ul line filename row with h | h | h
    · rw [h.2]
      simp [List.countP_cons, h.1, hrest, List.replicate_succ]
    · rw [h.2.2]
      simp [List.countP_cons, h.1, hrest]
    · obtain ⟨hne, kw, hkw, _⟩ := h
      obtain ⟨hmem, htext⟩ := getKeyword_some ul _ kw hkw
      exact absurd (htext ▸ FindString_infix ul.re line) (hno line (List.mem_cons_self _ _) kw hmem)

/-! ## C1: a file without keywords -/

/-- C1 (as amended): when no line of a file contains the text of a registered
keyword, `searchKeywordsInFile` returns a mapping with no record of any
keyword: the mapping is empty only if the pattern finds something on every
line (or the file has no lines); otherwise its single key is the empty string,
and under it stands one zero-valued record (row 0, empty annotation) for each
line on which the pattern finds nothing. -/
theorem searchKeywordsInFile_without_keyword (env : Env) (ul : Universalister)
    (path : GoString) (info : FileInfo) (lines : List GoString)
    (hopen : env.Open path = Except.ok { stat := Except.ok info, lines := lines })
    (hno : ∀ line ∈ lines, ∀ kw ∈ ul.Keywords, ¬ kw.Text <:+: line) :
    searchKeywordsInFile env ul path = Except.ok
      (if lines.countP (fun line => decide (FindString ul.re line = [])) = 0 then []
       else [([], List.replicate (lines.countP (fun line => decide (FindString ul.re line = [])))
                locationInfo.zero)]) := by
  rw [searchKeywordsInFile_eq env ul path info lines hopen, scanLines_eq_foldl,
    lineRecords_no_keyword ul info.name lines 1 hno, foldl_addRecord_zero_nil]

/-- Witness of C1 (as amended): a two-line text file under the default keywords. -/
theorem searchKeywordsInFile_without_keyword_witness :
    searchKeywordsInFile
        (tableEnv [("notes.txt", "notes.txt", ["nothing to see", "here"])] [])
        defaultModule "notes.txt".toList =
      Except.ok [([], [locationInfo.zero, locationInfo.zero])] :=
  searchKeywordsInFile_without_keyword
    (tableEnv [("notes.txt", "notes.txt", ["nothing to see", "here"])] [])
    defaultModule "notes.txt".toList (fileInfo "notes.txt")
    ["nothing to see".toList, "here".toList] rfl (by decide)

/-- C1 fails as stated: a one-line file that contains no keyword gives a
mapping that is not empty; it holds one zero-valued record under the empty
key. -/
theorem searchKeywordsInFile_without_keyword_not_empty :
    (∀ line ∈ ["package main".toList], ∀ kw ∈ defaultModule.Keywords, ¬ kw.Text <:+: line) ∧
    searchKeywordsInFile (tableEnv [("a.go", "a.go", ["package main"])] [])
        defaultModule "a.go".toList = Except.ok [([], [locationInfo.zero])] ∧
    searchKeywordsInFile (tableEnv [("a.go", "a.go", ["package main"])] [])
        defaultModule "a.go".toList ≠ Except.ok [] := by
  decide

/-! ## C2: the instruction text -/

/-- C2 (as amended): on a line where a registered keyword is found and that
holds at most one colon, the instruction of the returned record is everything
after that colon up to the end of the line, wherever the colon stands
relative to the keyword, and it is empty when the line has no colon. -/
theorem instruction_after_only_colon (ul : Universalister) (line filename : GoString)
    (row : Int) (loc : locationInfo) (hfound : FindString ul.re line ≠ [])
    (hok : getMatchedAnnotationLocations ul line filename row = Except.ok loc) :
    (':' ∉ line → loc.instruction = []) ∧
    (∀ a b, line = a ++ ':' :: b → ':' ∉ a → ':' ∉ b → loc.instruction = b) :=
  ⟨(instruction_second_piece ul line filename row loc hfound hok).1,
   (instruction_second_piece ul line filename row loc hfound hok).2.1⟩

/-- Witness of C2 (as amended): the line `// TODO: fix this`. -/
theorem instruction_after_only_colon_witness :
    (':' ∉ "// TODO: fix this".toList → " fix this".toList = []) ∧
    (∀ a b, "// TODO: fix this".toList = a ++ ':' :: b → ':' ∉ a → ':' ∉ b →
      " fix this".toList = b) :=
  instruction_after_only_colon defaultModule "// TODO: fix this".toList "a.go".toList 1
    { at_ := { Text := "TODO".toList, Color := "yellow".toList, Priority := 1 },
      instruction := " fix this".toList, filename := "a.go".toList, Row := 1 }
    (by decide) (by decide)

/-- C2 fails as stated: on `note: TODO later` no colon follows the keyword, so
the claimed instruction is empty, but the record holds ` TODO later`, the text
after the colon that precedes the keyword. -/
theorem instruction_colon_before_keyword :
    getMatchedAnnotationLocations defaultModule "note: TODO later".toList "a.go".toList 1 =
      Except.ok { at_ := { Text := "TODO".toList, Color := "yellow".toList, Priority := 1 },
                  instruction := " TODO later".toList, filename := "a.go".toList, Row := 1 } ∧
    instructionAfterKeyword "TODO".toList "note: TODO later".toList = [] := by
  decide

/-- With a second colon on the line the instruction stops there: on
`// TODO: fix: this` it is ` fix:`, not ` fix: this`. -/
theorem instruction_stops_at_second_colon :
    getMatchedAnnotationLocations defaultModule "// TODO: fix: this".toList "a.go".toList 1 =
      Except.ok { at_ := { Text := "TODO".toList, Color := "yellow".toList, Priority := 1 },
                  instruction := " fix:".toList, filename := "a.go".toList, Row := 1 } ∧
    instructionAfterKeyword "TODO".toList "// TODO: fix: this".toList = " fix: this".toList := by
  decide

/-! ## C9: a match that is not a registered keyword -/

theorem getKeyword_none (ul : Universalister) (key : GoString)
    (h : ∀ kw ∈ ul.Keywords, kw.Text ≠ key) : getKeyword ul key = none := by
  unfold getKeyword
  rw [List.find?_eq_none]
  intro kw hkw
  simpa using h kw hkw

theorem lineRecords_skip (ul : Universalister) (filename : GoString) (line : GoString)
    (rest : List GoString) (row : Int) (e : GoError)
    (h : getMatchedAnnotationLocations ul line filename row = Except.error e) :
    lineRecords ul filename (line :: rest) row = lineRecords ul filename rest (row + 1) := by
  simp [lineRecords, h]

theorem lineRecords_keep (ul : Universalister) (filename : GoString) (line : GoString)
    (rest : List GoString) (row : Int) (loc : locationInfo)
    (h : getMatchedAnnotationLocations ul line filename row = Except.ok loc) :
    lineRecords ul filename (line :: rest) row = loc :: lineRecords ul filename rest (row + 1) := by
  simp [lineRecords, h]

/-- C9: a line on which the pattern finds a text that is not the text of any
registered annotation makes `getMatchedAnnotationLocations` fail with the
keyword-not-found error; `searchKeywordsInFile` still succeeds, the line adds
no record, and the records of the other lines, row numbers included, are
those of the same file with a line without keyword in its place (which only
adds its zero-valued record under the empty key). -/
theorem keyword_not_found_line_skipped (env : Env) (ul : Universalister)
    (path1 path2 : GoString) (info : FileInfo) (pre post : List GoString)
    (bad plain : GoString)
    (hopen1 : env.Open path1 = Except.ok { stat := Except.ok info, lines := pre ++ bad :: post })
    (hopen2 : env.Open path2 = Except.ok { stat := Except.ok info, lines := pre ++ plain :: post })
    (hfound : FindString ul.re bad ≠ [])
    (hunregistered : ∀ kw ∈ ul.Keywords, kw.Text ≠ FindString ul.re bad)
    (hplain : FindString ul.re plain = []) :
    (∀ filename row, getMatchedAnnotationLocations ul bad filename row =
        Except.error (GoError.keywordNotFound (FindString ul.re bad))) ∧
    ∃ l1 l2, searchKeywordsInFile env ul path1 = Except.ok l1 ∧
      searchKeywordsInFile env ul path2 = Except.ok l2 ∧
      (∀ k, l1.get k =
        (lineRecords ul info.name pre 1 ++ lineRecords ul info.name post (pre.length + 2)).filter
          (fun loc => decide (loc.at_.Text = k))) ∧
      (∀ k, l2.get k =
        (lineRecords ul info.name pre 1 ++
          locationInfo.zero :: lineRecords ul info.name post (pre.length + 2)).filter
          (fun loc => decide (loc.at_.Text = k))) ∧
      (∀ k, k ≠ [] → l1.get k = l2.get k) := by
  have hnone := getKeyword_none ul _ hunregistered
  have herr : ∀ filename row, getMatchedAnnotationLocations ul bad filename row =
      Except.error (GoError.keywordNotFound (FindString ul.re bad)) := by
    intro filename row
    simp [getMatchedAnnotationLocations, hfound, hnone]
  have hzero : ∀ filename row, getMatchedAnnotationLocations ul plain filename row =
      Except.ok locationInfo.zero := by
    intro filename row
    simp [getMatchedAnnotationLocations, hplain]
  have hrow : (1 : Int) + (pre.length : Int) + 1 = (pre.length : Int) + 2 := by ring
  have h1 : ∀ k, (scanLines ul info.name (pre ++ bad :: post) 1 []).get k =
      (lineRecords ul info.name pre 1 ++ lineRecords ul info.name post (pre.length + 2)).filter
        (fun loc => decide (loc.at_.Text = k)) := by
    intro k
    rw [scanLines_get, lineRecords_append, lineRecords_skip _ _ _ _ _ _ (herr _ _), hrow]
    simp [list.get]
  have h2 : ∀ k, (scanLines ul info.name (pre ++ plain :: post) 1 []).get k =
      (lineRecords ul info.name pre 1 ++
        locationInfo.zero :: lineRecords ul info.name post (pre.length + 2)).filter
        (fun loc => decide (loc.at_.Text = k)) := by
    intro k
    rw [scanLines_get, lineRecords_append, lineRecords_keep _ _ _ _ _ _ (hzero _ _), hrow]
    simp [list.get]
  refine ⟨herr, _, _, searchKeywordsInFile_eq env ul path1 info _ hopen1,
    searchKeywordsInFile_eq env ul path2 info _ hopen2, h1, h2, ?_⟩
  intro k hk
  rw [h1, h2]
  have hz : ¬ locationInfo.zero.at_.Text = k := fun h => hk h.symm
  simp [List.filter_cons, hz]

/-- Witness of C9: the keyword `T.DO` and the line `TODO: x`, on which the
pattern finds `TODO`, a text that is not registered. -/
theorem keyword_not_found_line_skipped_witness :
    getMatchedAnnotationLocations (moduleWith ["T.DO"] [] ".") "TODO: x".toList "a".toList 2 =
      Except.error (GoError.keywordNotFound "TODO".toList) :=
  (keyword_not_found_line_skipped
    (tableEnv [("a", "a", ["// T.DO: one", "TODO: x", "// T.DO: two"]),
               ("b", "a", ["// T.DO: one", "plain", "// T.DO: two"])] [])
    (moduleWith ["T.DO"] [] ".") "a".toList "b".toList (fileInfo "a")
    ["// T.DO: one".toList] ["// T.DO: two".toList] "TODO: x".toList "plain".toList
    rfl rfl (by decide) (by decide) (by decide)).1 "a".toList 2

/-- The scan of that file: the records of lines 1 and 3 keep their rows. -/
theorem keyword_not_found_line_skipped_example :
    searchKeywordsInFile
        (tableEnv [("a", "a", ["// T.DO: one", "TODO: x", "// T.DO: two"])] [])
        (moduleWith ["T.DO"] [] ".") "a".toList =
      Except.ok [("T.DO".toList,
        [{ at_ := { Text := "T.DO".toList, Color := "red".toList, Priority := 1 },
           instruction := " one".toList, filename := "a".toList, Row := 1 },
         { at_ := { Text := "T.DO".toList, Color := "red".toList, Priority := 1 },
           instruction := " two".toList, filename := "a".toList, Row := 3 }])] := by
  decide

/-! ## C7: the exclusion filter -/

theorem isExcludedLoop_true_iff (patterns : List GoString) (path : GoString) :
    isExcludedLoop patterns path = Except.ok true ↔
      ∃ before p after, patterns = before ++ p :: after ∧ Match p path = Except.ok true ∧
        ∀ q ∈ before, Match q path = Except.ok false := by
  induction patterns with
  | nil => simp [isExcludedLoop]
  | cons p rest ih =>
    unfold isExcludedLoop
    cases hm : Match p path with
    | error e =>
      simp only [false_iff, reduceCtorEq]
      rintro ⟨before, q, after, hsplit, hq, hbefore⟩
      cases before with
      | nil =>
        simp only [List.nil_append, List.cons.injEq] at hsplit
        rw [hsplit.1, hq] at hm
        cases hm
      | cons b bs =>
        simp only [List.cons_append, List.cons.injEq] at hsplit
        have := hbefore b (List.mem_cons_self _ _)
        rw [← hsplit.1, hm] at this
        cases this
    | ok matched =>
      cases matched with
      | true =>
        simp only [if_true, true_iff]
        exact ⟨[], p, rest, rfl, hm, by simp⟩
      | false =>
        simp only [Bool.false_eq_true, if_false, ih]
        constructor
        · rintro ⟨before, q, after, hsplit, hq, hbefore⟩
          refine ⟨p :: before, q, after, by simp [hsplit], hq, ?_⟩
          intro r hr
          rcases List.mem_cons.1 hr with h | h
          · rw [h, hm]
          · exact hbefore r h
        · rintro ⟨before, q, after, hsplit, hq, hbefore⟩
          cases before with
          | nil =>
            simp only [List.nil_append, List.cons.injEq] at hsplit
            rw [hsplit.1, hq] at hm
            cases hm
          | cons b bs =>
            simp only [List.cons_append, List.cons.injEq] at hsplit
            exact ⟨bs, q, after, hsplit.2, hq,
              fun r hr => hbefore r (List.mem_cons_of_mem _ hr)⟩

theorem isExcludedLoop_false_iff (patterns : List GoString) (path : GoString) :
    isExcludedLoop patterns path = Except.ok false ↔
      ∀ p ∈ patterns, Match p path = Except.ok false := by
  induction patterns with
  | nil => simp [isExcludedLoop]
  | cons p rest ih =>
    unfold isExcludedLoop
    cases hm : Match p path with
    | error e => simp [hm]
    | ok matched =>
      cases matched with
      | true => simp [hm]
      | false => simp [hm, ih]

theorem isExcludedLoop_error (patterns : List GoString) (path : GoString) (e : GoError)
    (h : isExcludedLoop patterns path = Except.error e) :
    ∃ p ∈ patterns, Match p path = Except.error e := by
  induction patterns with
  | nil => simp [isExcludedLoop] at h
  | cons p rest ih =>
    unfold isExcludedLoop at h
    cases hm : Match p path with
    | error e2 =>
      rw [hm] at h
      simp only [Except.error.injEq] at h
      exact ⟨p, List.mem_cons_self _ _, by rw [hm, h]⟩
    | ok matched =>
      rw [hm] at h
      cases matched with
      | true => simp at h
      | false =>
        simp only [Bool.false_eq_true, if_false] at h
        obtain ⟨q, hq, hqe⟩ := ih h
        exact ⟨q, List.mem_cons_of_mem _ hq, hqe⟩

theorem matchOne_of_checkOne (c : Char) (chunk after : List Char) (r : Option Char)
    (h : checkOne c chunk = some after) :
    ∃ fits, matchOne c chunk r = Except.ok (after, fits) := by
  unfold checkOne at h
  unfold matchOne
  by_cases hc : c = '['
  · simp only [hc, if_true] at h ⊢
    cases hr : parseRanges (chunk.length + 1)
        (if chunk.head? = some '^' then chunk.tail else chunk) 0 with
    | error e => simp [hr] at h
    | ok res =>
      obtain ⟨ranges, after2⟩ := res
      simp only [hr, Option.some.injEq] at h
      subst h
      cases r with
      | none => exact ⟨_, rfl⟩
      | some x => exact ⟨_, rfl⟩
  · simp only [hc, if_false] at h ⊢
    by_cases hb : c = '\\'
    · have hq : ¬ c = '?' := by
        rw [hb]
        decide
      simp only [hb, if_true] at h
      simp only [hq, if_false, hb, if_true]
      cases chunk with
      | nil => simp at h
      | cons d rest =>
        simp only [Option.some.injEq] at h
        subst h
        exact ⟨_, rfl⟩
    · simp only [hb, if_false, Option.some.injEq] at h
      subst h
      simp only [hb, if_false]
      by_cases hq : c = '?'
      · simp only [hq, if_true]
        exact ⟨_, rfl⟩
      · simp only [hq, if_false]
        exact ⟨_, rfl⟩

theorem matchChunkLoop_of_checkChunk (fuel : Nat) (chunk s : List Char) (failed : Bool)
    (h : checkChunk fuel chunk = true) :
    ∃ res, matchChunkLoop fuel chunk s failed = Except.ok res := by
  induction fuel generalizing chunk s failed with
  | zero =>
    cases chunk with
    | nil => exact ⟨_, rfl⟩
    | cons c cs => simp [checkChunk] at h
  | succ fuel ih =>
    cases chunk with
    | nil => exact ⟨_, rfl⟩
    | cons c cs =>
      rw [checkChunk] at h
      rw [matchChunkLoop]
      cases hc : checkOne c cs with
      | none => simp [hc] at h
      | some after =>
        simp only [hc] at h
        obtain ⟨fits, hfits⟩ :=
          matchOne_of_checkOne c cs after (if failed then none else s.head?) hc
        rw [hfits]
        simp only
        split
        · exact ih after s true h
        · exact ih after s.tail (!fits) h

theorem matchChunk_of_checkChunk (fuel : Nat) (chunk s : List Char)
    (h : checkChunk fuel chunk = true) : ∃ res, matchChunk fuel chunk s = Except.ok res :=
  matchChunkLoop_of_checkChunk fuel chunk s false h

theorem starSearch_of_checkChunk (chunk : List Char) (lastChunk : Bool) (name : List Char)
    (h : checkChunk (chunk.length + 1) chunk = true) :
    ∃ res, starSearch chunk lastChunk name = Except.ok res := by
  induction name with
  | nil => exact ⟨_, rfl⟩
  | cons c rest ih =>
    rw [starSearch]
    split
    · exact ⟨_, rfl⟩
    · obtain ⟨res, hres⟩ := matchChunk_of_checkChunk _ chunk rest h
      rw [hres]
      cases res with
      | none => exact ih
      | some t =>
        simp only
        split
        · exact ih
        · exact ⟨_, rfl⟩

theorem advance_of_checkChunk (sc : Scanned) (name : List Char)
    (h : checkChunk (sc.chunk.length + 1) sc.chunk = true) :
    ∃ res, advance sc name = Except.ok res := by
  unfold advance
  obtain ⟨res, hres⟩ := matchChunk_of_checkChunk _ sc.chunk name h
  rw [hres]
  cases res with
  | none =>
    simp only
    split
    · exact starSearch_of_checkChunk _ _ _ h
    · exact ⟨_, rfl⟩
  | some t =>
    simp only
    split
    · exact ⟨_, rfl⟩
    · split
      · exact starSearch_of_checkChunk _ _ _ h
      · exact ⟨_, rfl⟩

theorem matchLoop_of_wellFormedLoop (fuel : Nat) (pattern name : List Char)
    (h : wellFormedLoop fuel pattern = true) :
    ∃ b, matchLoop fuel pattern name = Except.ok b := by
  induction fuel generalizing pattern name with
  | zero =>
    cases pattern with
    | nil => exact ⟨_, rfl⟩
    | cons c cs => simp [wellFormedLoop] at h
  | succ fuel ih =>
    cases pattern with
    | nil => exact ⟨_, rfl⟩
    | cons c cs =>
      rw [wellFormedLoop, Bool.and_eq_true] at h
      rw [matchLoop]
      split
      · exact ⟨_, rfl⟩
      · obtain ⟨res, hres⟩ := advance_of_checkChunk (scanChunk (c :: cs)) name h.1
        rw [hres]
        cases res with
        | none => exact ⟨_, rfl⟩
        | some t => exact ih _ t h.2

/-- A well-formed pattern never makes `Match` fail, whatever the name. -/
theorem Match_of_wellFormed (pattern name : GoString) (h : wellFormed pattern = true) :
    ∃ b, Match pattern name = Except.ok b :=
  matchLoop_of_wellFormedLoop _ pattern name h

/-- The error of `Match` comes from a malformed pattern only. -/
theorem Match_error (pattern name : GoString) (e : GoError)
    (h : Match pattern name = Except.error e) : wellFormed pattern = false := by
  cases hw : wellFormed pattern with
  | false => rfl
  | true =>
    obtain ⟨b, hb⟩ := Match_of_wellFormed pattern name hw
    rw [hb] at h
    cases h

theorem isExcludedLoop_error_iff (patterns : List GoString) (path : GoString) (e : GoError) :
    isExcludedLoop patterns path = Except.error e ↔
      ∃ before p after, patterns = before ++ p :: after ∧ Match p path = Except.error e ∧
        ∀ q ∈ before, Match q path = Except.ok false := by
  induction patterns with
  | nil => simp [isExcludedLoop]
  | cons p rest ih =>
    unfold isExcludedLoop
    cases hm : Match p path with
    | error e2 =>
      simp only [Except.error.injEq]
      constructor
      · intro he
        exact ⟨[], p, rest, rfl, by rw [hm, he], by simp⟩
      · rintro ⟨before, q, after, hsplit, hq, hbefore⟩
        cases before with
        | nil =>
          simp only [List.nil_append, List.cons.injEq] at hsplit
          rw [hsplit.1, hq] at hm
          exact (Except.error.inj hm).symm
        | cons b bs =>
          simp only [List.cons_append, List.cons.injEq] at hsplit
          have := hbefore b (List.mem_cons_self _ _)
          rw [← hsplit.1, hm] at this
          cases this
    | ok matched =>
      cases matched with
      | true =>
        simp only [if_true, false_iff, reduceCtorEq]
        rintro ⟨before, q, after, hsplit, hq, hbefore⟩
        cases before with
        | nil =>
          simp only [List.nil_append, List.cons.injEq] at hsplit
          rw [hsplit.1, hq] at hm
          cases hm
        | cons b bs =>
          simp only [List.cons_append, List.cons.injEq] at hsplit
          have := hbefore b (List.mem_cons_self _ _)
          rw [← hsplit.1, hm] at this
          cases this
      | false =>
        simp only [Bool.false_eq_true, if_false, ih]
        constructor
        · rintro ⟨before, q, after, hsplit, hq, hbefore⟩
          refine ⟨p :: before, q, after, by simp [hsplit], hq, ?_⟩
          intro r hr
          rcases List.mem_cons.1 hr with h | h
          · rw [h, hm]
          · exact hbefore r h
        · rintro ⟨before, q, after, hsplit, hq, hbefore⟩
          cases before with
          | nil =>
            simp only [List.nil_append, List.cons.injEq] at hsplit
            rw [hsplit.1, hq] at hm
            cases hm
          | cons b bs =>
            simp only [List.cons_append, List.cons.injEq] at hsplit
            exact ⟨bs, q, after, hsplit.2, hq,
              fun r hr => hbefore r (List.mem_cons_of_mem _ hr)⟩

theorem isExcludedLoop_of_wellFormed (patterns : List GoString) (path : GoString)
    (hwf : ∀ p ∈ patterns, wellFormed p = true) :
    isExcludedLoop patterns path =
      Except.ok (decide (∃ p ∈ patterns, Match p path = Except.ok true)) := by
  induction patterns with
  | nil => simp [isExcludedLoop]
  | cons p rest ih =>
    obtain ⟨b, hb⟩ := Match_of_wellFormed p path (hwf p (List.mem_cons_self _ _))
    have hrest := ih (fun q hq => hwf q (List.mem_cons_of_mem _ hq))
    unfold isExcludedLoop
    rw [hb]
    cases b with
    | true => simp [hb]
    | false => simp [hb, hrest]

/-- Without a malformed pattern `isExcluded` returns whether at least one
pattern glob-matches the whole path. -/
theorem isExcluded_of_wellFormed (ul : Universalister) (path : GoString)
    (hwf : ∀ p ∈ ul.ExcludedFiles, wellFormed p = true) :
    isExcluded ul path =
      Except.ok (decide (∃ p ∈ ul.ExcludedFiles, Match p path = Except.ok true)) :=
  isExcludedLoop_of_wellFormed _ _ hwf

/-- C7 (as amended): `isExcluded` tries the patterns in order and stops at the
first one for which `filepath.Match` does not return false without error. It
returns true exactly when some pattern glob-matches the whole path and `Match`
returns false without error for every pattern before it; it returns false
exactly when `Match` returns false without error for every pattern; it
returns an error exactly when `Match` raises it on some pattern and returns
false without error for every pattern before it, and such a pattern is
syntactically invalid. When every pattern is well formed it returns whether at
least one pattern glob-matches the whole path. With `*.generated.*` as only
pattern it returns true for `foo.generated.go` and false for `bar.go`. -/
theorem isExcluded_first_decides (ul : Universalister) (path : GoString) :
    (isExcluded ul path = Except.ok true ↔
      ∃ before p after, ul.ExcludedFiles = before ++ p :: after ∧
        Match p path = Except.ok true ∧ ∀ q ∈ before, Match q path = Except.ok false) ∧
    (isExcluded ul path = Except.ok false ↔
      ∀ p ∈ ul.ExcludedFiles, Match p path = Except.ok false) ∧
    (∀ e, isExcluded ul path = Except.error e ↔
      ∃ before p after, ul.ExcludedFiles = before ++ p :: after ∧
        Match p path = Except.error e ∧ ∀ q ∈ before, Match q path = Except.ok false) ∧
    (∀ e, isExcluded ul path = Except.error e →
      ∃ p ∈ ul.ExcludedFiles, wellFormed p = false ∧ Match p path = Except.error e) ∧
    ((∀ p ∈ ul.ExcludedFiles, wellFormed p = true) →
      isExcluded ul path =
        Except.ok (decide (∃ p ∈ ul.ExcludedFiles, Match p path = Except.ok true))) ∧
    isExcluded (moduleWith [] ["*.generated.*"] ".") "foo.generated.go".toList = Except.ok true ∧
    isExcluded (moduleWith [] ["*.generated.*"] ".") "bar.go".toList = Except.ok false := by
  refine ⟨isExcludedLoop_true_iff _ _, isExcludedLoop_false_iff _ _,
    fun e => isExcludedLoop_error_iff _ _ e, ?_,
    fun hwf => isExcludedLoop_of_wellFormed _ _ hwf, by decide, by decide⟩
  intro e he
  obtain ⟨p, hp, hpe⟩ := isExcludedLoop_error _ _ _ he
  exact ⟨p, hp, Match_error _ _ _ hpe, hpe⟩

/-- C7 fails as stated: with the patterns `[` and `*`, the second pattern
glob-matches the path `a`, yet `isExcluded` does not return true; it returns
the error of the malformed first pattern. -/
theorem isExcluded_error_before_match :
    (∃ p ∈ (moduleWith [] ["[", "*"] ".").ExcludedFiles,
      Match p "a".toList = Except.ok true) ∧
    isExcluded (moduleWith [] ["[", "*"] ".") "a".toList = Except.error GoError.badPattern ∧
    isExcluded (moduleWith [] ["[", "*"] ".") "a".toList ≠ Except.ok true := by
  decide

/-- A malformed part of a pattern that matching does not reach raises no
error: `x*[` is malformed, yet on the path `abc` it only fails to match, so
with `*` after it `isExcluded` returns true, and alone it returns false. -/
theorem isExcluded_unreached_malformed :
    wellFormed "x*[".toList = false ∧
    Match "x*[".toList "abc".toList = Except.ok false ∧
    isExcluded (moduleWith [] ["x*[", "*"] ".") "abc".toList = Except.ok true ∧
    isExcluded (moduleWith [] ["x*["] ".") "abc".toList = Except.ok false := by
  decide

/-- A chunk is matched at the first position where it fits and the match is
not revisited: `*[^b]*y` does not match `a/y`, and `*` does not cross the
separator. -/
theorem Match_commits_to_first_position :
    Match "*[^b]*y".toList "a/y".toList = Except.ok false ∧
    Match "*.generated.*".toList "src/foo.generated.go".toList = Except.ok false ∧
    Match "src/*.generated.*".toList "src/foo.generated.go".toList = Except.ok true := by
  decide

/-! ## The walk -/

theorem mergeInto_get (localList : list) (acc : list) (k : GoString)
    (hnodup : localList.keys.Nodup) :
    (mergeInto acc localList).get k = acc.get k ++ localList.get k := by
  induction localList generalizing acc with
  | nil => simp [mergeInto, list.get]
  | cons e rest ih =>
    obtain ⟨key, loc⟩ := e
    simp only [list.keys, List.map_cons, List.nodup_cons] at hnodup
    unfold mergeInto
    rw [ih _ hnodup.2]
    by_cases h : key = k
    · subst h
      have hrest : list.get rest key = [] := list.get_of_not_mem_keys rest key hnodup.1
      simp [list.get_set_self, list.get, hrest]
    · simp [list.get_set_ne _ _ _ _ h, list.get, h]

theorem searchKeywordsInFile_keys_nodup (env : Env) (ul : Universalister) (path : GoString)
    (l : list) (h : searchKeywordsInFile env ul path = Except.ok l) : l.keys.Nodup := by
  unfold searchKeywordsInFile at h
  cases hopen : env.Open path with
  | error e => simp [hopen] at h
  | ok f =>
    cases hstat : f.stat with
    | error e => simp [hopen, hstat] at h
    | ok stat =>
      simp only [hopen, hstat, Except.ok.injEq] at h
      rw [← h, scanLines_eq_foldl]
      exact foldl_addRecord_keys_nodup _ _ (by simp [list.keys])

/-- The callback never reads the error the traversal reports for an entry. -/
theorem walkFn_ignores_err (env : Env) (ul : Universalister) (acc : list) (entry : WalkEntry)
    (e : Option GoError) :
    walkFn env ul acc { entry with err := e } = walkFn env ul acc entry := rfl

theorem walkFn_excludedFile (env : Env) (ul : Universalister) (acc : list) (entry : WalkEntry)
    (h : excludedFile ul entry = true) : walkFn env ul acc entry = Outcome.ok acc := by
  unfold excludedFile at h
  unfold walkFn
  cases hinfo : entry.info with
  | none => simp [hinfo] at h
  | some info =>
    simp only [hinfo, Bool.and_eq_true, decide_eq_true_eq] at h
    simp [h.2]

theorem walkFn_directory (env : Env) (ul : Universalister) (acc : list) (entry : WalkEntry)
    (hwf : ∀ p ∈ ul.ExcludedFiles, wellFormed p = true)
    (h : isDirectory entry = true) : walkFn env ul acc entry = Outcome.ok acc := by
  unfold isDirectory at h
  unfold walkFn
  rw [isExcluded_of_wellFormed ul entry.path hwf]
  cases hinfo : entry.info with
  | none => simp [hinfo] at h
  | some info =>
    simp only [hinfo] at h
    simp [h]

theorem walkLoop_filter (env : Env) (ul : Universalister) (keep : WalkEntry → Bool)
    (entries : List WalkEntry) (acc : list)
    (hskip : ∀ entry ∈ entries, keep entry = false →
      ∀ acc1, walkFn env ul acc1 entry = Outcome.ok acc1) :
    walkLoop env ul (entries.filter keep) acc = walkLoop env ul entries acc := by
  induction entries generalizing acc with
  | nil => rfl
  | cons entry rest ih =>
    have hrest : ∀ acc1, walkLoop env ul (rest.filter keep) acc1 = walkLoop env ul rest acc1 :=
      fun acc1 => ih acc1 (fun e he => hskip e (List.mem_cons_of_mem _ he))
    cases hk : keep entry with
    | true =>
      rw [List.filter_cons_of_pos (by simpa using hk)]
      unfold walkLoop
      cases walkFn env ul acc entry <;> simp [hrest]
    | false =>
      rw [List.filter_cons_of_neg (by simp [hk])]
      conv_rhs => unfold walkLoop
      rw [hskip entry (List.mem_cons_self _ _) hk acc]
      exact hrest acc

theorem walkLoop_restrictWalk (env : Env) (ul : Universalister) (keep : WalkEntry → Bool)
    (entries : List WalkEntry) (acc : list) :
    walkLoop (env.restrictWalk keep) ul entries acc = walkLoop env ul entries acc := by
  induction entries generalizing acc with
  | nil => rfl
  | cons entry rest ih =>
    unfold walkLoop
    have hfn : walkFn (env.restrictWalk keep) ul acc entry = walkFn env ul acc entry := rfl
    rw [hfn]
    cases walkFn env ul acc entry <;> simp [ih]

theorem searchKeywords_restrictWalk (env : Env) (ul : Universalister) (keep : WalkEntry → Bool)
    (hskip : ∀ entry ∈ env.walk ul.Path, keep entry = false →
      ∀ acc1, walkFn env ul acc1 entry = Outcome.ok acc1) :
    searchKeywords (env.restrictWalk keep) ul = searchKeywords env ul := by
  unfold searchKeywords
  have hwalk : (env.restrictWalk keep).walk ul.Path = (env.walk ul.Path).filter keep := rfl
  rw [hwalk, walkLoop_restrictWalk, walkLoop_filter env ul keep _ _ hskip]

/-- C5: with no malformed exclusion pattern, the outcome of `searchKeywords`,
and so the ResultSet it builds, is the one of the same tree without its
excluded files, and also the one of the tree without its excluded files and
its directories: excluded files and directories add nothing to the
ResultSet. -/
theorem excluded_files_never_populate (env : Env) (ul : Universalister)
    (hwf : ∀ p ∈ ul.ExcludedFiles, wellFormed p = true) :
    searchKeywords env ul =
      searchKeywords (env.restrictWalk (fun entry => !excludedFile ul entry)) ul ∧
    searchKeywords env ul =
      searchKeywords
        (env.restrictWalk (fun entry => !excludedFile ul entry && !isDirectory entry)) ul := by
  constructor
  · symm
    apply searchKeywords_restrictWalk
    intro entry _ hkeep acc1
    exact walkFn_excludedFile env ul acc1 entry (by simpa using hkeep)
  · symm
    apply searchKeywords_restrictWalk
    intro entry _ hkeep acc1
    simp only [Bool.and_eq_false_iff, Bool.not_eq_false'] at hkeep
    rcases hkeep with h | h
    · exact walkFn_excludedFile env ul acc1 entry h
    · exact walkFn_directory env ul acc1 entry hwf h

/-- Witness of C5: a tree with a directory, a scanned file and an excluded
file, under the pattern `*.generated.*`. -/
theorem excluded_files_never_populate_witness :
    searchKeywords
        (tableEnv [("a.go", "a.go", ["// TODO: one"]),
                   ("b.generated.go", "b.generated.go", ["// TODO: two"])]
          [visited "." (dirInfo "."), visited "a.go" (fileInfo "a.go"),
           visited "b.generated.go" (fileInfo "b.generated.go")])
        (moduleWith ["TODO"] ["*.generated.*"] ".") =
      searchKeywords
        ((tableEnv [("a.go", "a.go", ["// TODO: one"]),
                    ("b.generated.go", "b.generated.go", ["// TODO: two"])]
          [visited "." (dirInfo "."), visited "a.go" (fileInfo "a.go"),
           visited "b.generated.go" (fileInfo "b.generated.go")]).restrictWalk
          (fun entry => !excludedFile (moduleWith ["TODO"] ["*.generated.*"] ".") entry))
        (moduleWith ["TODO"] ["*.generated.*"] ".") :=
  (excluded_files_never_populate
    (tableEnv [("a.go", "a.go", ["// TODO: one"]),
               ("b.generated.go", "b.generated.go", ["// TODO: two"])]
      [visited "." (dirInfo "."), visited "a.go" (fileInfo "a.go"),
       visited "b.generated.go" (fileInfo "b.generated.go")])
    (moduleWith ["TODO"] ["*.generated.*"] ".") (by decide)).1

/-- The ResultSet of that tree holds the record of `a.go` only. -/
theorem excluded_files_never_populate_example :
    searchKeywords
        (tableEnv [("a.go", "a.go", ["// TODO: one"]),
                   ("b.generated.go", "b.generated.go", ["// TODO: two"])]
          [visited "." (dirInfo "."), visited "a.go" (fileInfo "a.go"),
           visited "b.generated.go" (fileInfo "b.generated.go")])
        (moduleWith ["TODO"] ["*.generated.*"] ".") =
      Outcome.ok { moduleWith ["TODO"] ["*.generated.*"] "." with
        list := [("TODO".toList,
          [{ at_ := { Text := "TODO".toList, Color := "red".toList, Priority := 1 },
             instruction := " one".toList, filename := "a.go".toList, Row := 1 }])] } := by
  decide

/-! ## C6: the order of the records -/

theorem walkFn_ok (env : Env) (ul : Universalister) (acc acc1 : list) (entry : WalkEntry)
    (h : walkFn env ul acc entry = Outcome.ok acc1) :
    (scanned ul entry = true ∧
      ∃ l, searchKeywordsInFile env ul entry.path = Except.ok l ∧ acc1 = mergeInto acc l) ∨
    (scanned ul entry = false ∧ acc1 = acc) := by
  unfold walkFn at h
  unfold scanned
  cases hex : isExcluded ul entry.path with
  | error e => simp [hex] at h
  | ok excluded =>
    cases hinfo : entry.info with
    | none => simp [hex, hinfo] at h
    | some info =>
      simp only [hex, hinfo] at h
      cases hdir : info.isDir with
      | true =>
        right
        simp only [hdir, Bool.not_true, Bool.false_and, Bool.false_eq_true, if_false,
          Outcome.ok.injEq] at h
        exact ⟨by simp [hdir], h.symm⟩
      | false =>
        cases excluded with
        | true =>
          right
          simp only [hdir, Bool.not_true, Bool.and_false, Bool.false_eq_true, if_false,
            Outcome.ok.injEq] at h
          exact ⟨by simp [hdir], h.symm⟩
        | false =>
          left
          simp only [hdir, Bool.not_false, Bool.and_self, if_true] at h
          cases hscan : searchKeywordsInFile env ul entry.path with
          | error e => simp [hscan] at h
          | ok l =>
            simp only [hscan, Outcome.ok.injEq] at h
            exact ⟨by simp [hdir], l, rfl, h.symm⟩

theorem walkLoop_get (env : Env) (ul : Universalister) (entries : List WalkEntry)
    (acc l : list) (k : GoString) (h : walkLoop env ul entries acc = Outcome.ok l) :
    l.get k = acc.get k ++ (entries.filter (scanned ul)).flatMap (fileRecords env ul k) ∧
    ∀ entry ∈ entries.filter (scanned ul),
      ∃ fl, searchKeywordsInFile env ul entry.path = Except.ok fl := by
  induction entries generalizing acc with
  | nil =>
    simp only [walkLoop, Outcome.ok.injEq] at h
    simp [h]
  | cons entry rest ih =>
    unfold walkLoop at h
    cases hfn : walkFn env ul acc entry with
    | err e => simp [hfn] at h
    | panicked => simp [hfn] at h
    | ok acc1 =>
      simp only [hfn] at h
      obtain ⟨hget, hall⟩ := ih acc1 h
      rcases walkFn_ok env ul acc acc1 entry hfn with ⟨hs, fl, hfl, hacc1⟩ | ⟨hs, hacc1⟩
      · rw [List.filter_cons_of_pos hs]
        constructor
        · rw [hget, hacc1, mergeInto_get _ _ _ (searchKeywordsInFile_keys_nodup env ul _ fl hfl)]
          simp [fileRecords, hfl]
        · intro e he
          rcases List.mem_cons.1 he with h1 | h1
          · exact ⟨fl, h1 ▸ hfl⟩
          · exact hall e h1
      · rw [List.filter_cons_of_neg (by simp [hs])]
        exact ⟨by rw [hget, hacc1], hall⟩

theorem searchKeywordsInFile_ok (env : Env) (ul : Universalister) (path : GoString)
    (fl : list) (h : searchKeywordsInFile env ul path = Except.ok fl) :
    ∃ f stat, env.Open path = Except.ok f ∧ f.stat = Except.ok stat ∧
      fl = scanLines ul stat.name f.lines 1 [] := by
  unfold searchKeywordsInFile at h
  cases hopen : env.Open path with
  | error e => simp [hopen] at h
  | ok f =>
    cases hstat : f.stat with
    | error e => simp [hopen, hstat] at h
    | ok stat =>
      simp only [hopen, hstat, Except.ok.injEq] at h
      exact ⟨f, stat, rfl, hstat, h.symm⟩

/-- C6: after a successful walk, the sequence stored under a keyword in the
ResultSet is the concatenation, in walk order over the scanned files (not a
directory, not excluded), of the sequences `searchKeywordsInFile` returns
under that keyword for each of them; each of these scans succeeded, and the
sequence of a file holds its records of that keyword in line order. -/
theorem records_keep_walk_order (env : Env) (ul ul1 : Universalister) (k : GoString)
    (hok : searchKeywords env ul = Outcome.ok ul1) :
    ul1.list.get k =
      ((env.walk ul.Path).filter (scanned ul)).flatMap (fileRecords env ul k) ∧
    ∀ entry ∈ (env.walk ul.Path).filter (scanned ul),
      ∃ fl f stat, searchKeywordsInFile env ul entry.path = Except.ok fl ∧
        fileRecords env ul k entry = fl.get k ∧
        env.Open entry.path = Except.ok f ∧ f.stat = Except.ok stat ∧
        fl.get k = (lineRecords ul stat.name f.lines 1).filter
          (fun loc => decide (loc.at_.Text = k)) := by
  unfold searchKeywords at hok
  cases hloop : walkLoop env ul (env.walk ul.Path) [] with
  | err e => simp [hloop] at hok
  | panicked => simp [hloop] at hok
  | ok l =>
    simp only [hloop, Outcome.ok.injEq] at hok
    obtain ⟨hget, hall⟩ := walkLoop_get env ul _ [] l k hloop
    subst hok
    refine ⟨by simpa [list.get] using hget, ?_⟩
    intro entry he
    obtain ⟨fl, hfl⟩ := hall entry he
    obtain ⟨f, stat, hopen, hstat, hscan⟩ := searchKeywordsInFile_ok env ul _ fl hfl
    refine ⟨fl, f, stat, hfl, by simp [fileRecords, hfl], hopen, hstat, ?_⟩
    rw [hscan, scanLines_get]
    simp [list.get]

/-- Witness of C6: the default keywords on the tree of `scenarioEnv`, for the
keyword `BUG`. -/
theorem records_keep_walk_order_witness :
    list.get
        [([], [locationInfo.zero, locationInfo.zero]),
         ("BUG".toList,
          [{ at_ := { Text := "BUG".toList, Color := "red".toList, Priority := 1 },
             instruction := " null deref".toList, filename := "a.go".toList, Row := 3 }]),
         ("TODO".toList,
          [{ at_ := { Text := "TODO".toList, Color := "yellow".toList, Priority := 1 },
             instruction := " refactor".toList, filename := "b.go".toList, Row := 1 }])]
        "BUG".toList =
      ((scenarioEnv.walk defaultModule.Path).filter (scanned defaultModule)).flatMap
        (fileRecords scenarioEnv defaultModule "BUG".toList) :=
  (records_keep_walk_order scenarioEnv defaultModule
    { defaultModule with
      list := [([], [locationInfo.zero, locationInfo.zero]),
         ("BUG".toList,
          [{ at_ := { Text := "BUG".toList, Color := "red".toList, Priority := 1 },
             instruction := " null deref".toList, filename := "a.go".toList, Row := 3 }]),
         ("TODO".toList,
          [{ at_ := { Text := "TODO".toList, Color := "yellow".toList, Priority := 1 },
             instruction := " refactor".toList, filename := "b.go".toList, Row := 1 }])] }
    "BUG".toList (by decide)).1

/-! ## C4: errors of the traversal -/

/-- C4, the code at a root that does not exist: the callback receives a nil
file info and the error of the traversal, does not read the error, and calls
`IsDir` on the nil file info. `searchKeywords` and `Start` do not return the
error; they panic. -/
theorem missing_root_panics :
    searchKeywords missingRootEnv (moduleWith ["TODO"] [] "/nonexistent") = Outcome.panicked ∧
    Start missingRootEnv (moduleWith ["TODO"] [] "/nonexistent") = Outcome.panicked ∧
    Start missingRootEnv (moduleWith ["TODO"] [] "/nonexistent") ≠
      Outcome.err (GoError.os "lstat /nonexistent: no such file or directory".toList) := by
  decide

/-- An error reported for an entry that has a file info (a directory that
cannot be read) is dropped: the walk goes on, `Start` succeeds and writes the
report of the other files. -/
theorem unreadable_directory_ignored :
    Start lockedDirEnv (moduleWith ["TODO"] [] ".") =
      Outcome.ok { moduleWith ["TODO"] [] "." with
        list := [("TODO".toList,
          [{ at_ := { Text := "TODO".toList, Color := "red".toList, Priority := 1 },
             instruction := " one".toList, filename := "a.go".toList, Row := 1 }])]
        writer := ["TODO\n".toList, "  -  one\t a.go:1\n\n".toList] } := by
  decide

/-- Whatever error the traversal reports for an entry without file info, the
callback panics on it when the exclusion patterns are well formed. -/
theorem walkFn_nil_info (env : Env) (ul : Universalister) (acc : list) (entry : WalkEntry)
    (hwf : ∀ p ∈ ul.ExcludedFiles, wellFormed p = true) (hinfo : entry.info = none) :
    walkFn env ul acc entry = Outcome.panicked := by
  unfold walkFn
  rw [isExcluded_of_wellFormed ul entry.path hwf]
  simp [hinfo]

/-! ## C10: the renderer -/

theorem showLocations_eq (locations : List locationInfo) (w : List GoString) :
    showLocations locations w =
      w ++ (locations.filter (fun loc => decide (loc.Row ≠ 0))).map
        (fun loc => generateOutput loc ++ "\n".toList) := by
  induction locations generalizing w with
  | nil => simp [showLocations]
  | cons loc rest ih =>
    unfold showLocations
    by_cases h : loc.Row = 0
    · simp [h, ih]
    · simp [h, ih, Fprintln]

theorem getKeyword_eq_firstRegistered (ul : Universalister) (key : GoString) :
    getKeyword ul key = firstRegistered ul.Keywords key := by
  unfold getKeyword
  induction ul.Keywords with
  | nil => rfl
  | cons kw rest ih =>
    by_cases h : kw.Text = key
    · simp [firstRegistered, List.find?_cons, h]
    · simp [firstRegistered, List.find?_cons, h, ih]

theorem firstRegistered_none (keywords : List annotation) (key : GoString)
    (h : ∀ kw ∈ keywords, kw.Text ≠ key) : firstRegistered keywords key = none := by
  induction keywords with
  | nil => rfl
  | cons kw rest ih =>
    have hkw : ¬ kw.Text = key := h kw (List.mem_cons_self _ _)
    simp only [firstRegistered, hkw, if_false]
    exact ih (fun k hk => h k (List.mem_cons_of_mem _ hk))

theorem firstRegistered_some (keywords : List annotation) (key : GoString)
    (h : ∃ kw ∈ keywords, kw.Text = key) :
    ∃ kw ∈ keywords, kw.Text = key ∧ firstRegistered keywords key = some kw := by
  induction keywords with
  | nil =>
    obtain ⟨kw, hkw, _⟩ := h
    simp at hkw
  | cons kw rest ih =>
    by_cases hk : kw.Text = key
    · exact ⟨kw, List.mem_cons_self _ _, hk, by simp [firstRegistered, hk]⟩
    · obtain ⟨k2, hk2, ht2⟩ := h
      rcases List.mem_cons.1 hk2 with heq | hmem
      · exact absurd (heq ▸ ht2) hk
      · obtain ⟨k3, hk3, ht3, hf3⟩ := ih ⟨k2, hmem, ht2⟩
        exact ⟨k3, List.mem_cons_of_mem _ hk3, ht3, by simp [firstRegistered, hk, hf3]⟩

theorem showEntries_eq (env : Env) (ul : Universalister) (entries : list) (w : List GoString) :
    showEntries env ul entries w = w ++ entries.flatMap (keywordBlock env ul) := by
  induction entries generalizing w with
  | nil => simp [showEntries]
  | cons entry rest ih =>
    obtain ⟨key, locations⟩ := entry
    unfold showEntries
    have hreg := getKeyword_eq_firstRegistered ul key
    cases hkw : getKeyword ul key with
    | none =>
      rw [hkw] at hreg
      simp [ih, keywordBlock, ← hreg]
    | some kw =>
      rw [hkw] at hreg
      simp [ih, keywordBlock, ← hreg, showLocations_eq, Fprintln]

/-- C10: `showOutput` appends to the writer, for each entry of the ResultSet
in turn, the block of that entry. For a key that is the text of no registered
annotation the block is empty: nothing is written. For a key that is
registered the block is the label of the key, in the colour of a registered
annotation with that text, followed by one entry per record whose row is not
0, in sequence order (each write ends with the newline `Fprintln` adds to the
newline of `generateOutput`). So no write comes from a record with row 0. -/
theorem showOutput_blocks (env : Env) (ul : Universalister) :
    (showOutput env ul).writer = ul.writer ++ ul.list.flatMap (keywordBlock env ul) ∧
    (∀ key locations, (∀ kw ∈ ul.Keywords, kw.Text ≠ key) →
      keywordBlock env ul (key, locations) = []) ∧
    (∀ key locations, (∃ kw ∈ ul.Keywords, kw.Text = key) →
      ∃ kw ∈ ul.Keywords, kw.Text = key ∧
        keywordBlock env ul (key, locations) =
          (env.ansiColor key kw.Color ++ "\n".toList) ::
            (locations.filter (fun loc => decide (loc.Row ≠ 0))).map
              (fun loc => generateOutput loc ++ "\n".toList)) ∧
    (∀ entry ∈ ul.list, ∀ text ∈ (keywordBlock env ul entry).tail,
      ∃ loc ∈ entry.2, loc.Row ≠ 0 ∧ text = generateOutput loc ++ "\n".toList) := by
  refine ⟨showEntries_eq env ul ul.list ul.writer, ?_, ?_, ?_⟩
  · intro key locations h
    simp [keywordBlock, firstRegistered_none ul.Keywords key h]
  · intro key locations h
    obtain ⟨kw, hkw, htext, hfirst⟩ := firstRegistered_some ul.Keywords key h
    exact ⟨kw, hkw, htext, by simp [keywordBlock, hfirst]⟩
  · intro entry _ text htext
    unfold keywordBlock at htext
    cases hkw : firstRegistered ul.Keywords entry.1 with
    | none => simp [hkw] at htext
    | some kw =>
      simp only [hkw, List.tail_cons, List.mem_map, List.mem_filter, decide_eq_true_eq] at htext
      obtain ⟨loc, ⟨hmem, hrow⟩, htxt⟩ := htext
      exact ⟨loc, hmem, hrow, htxt.symm⟩

/-- A ResultSet with the registered key `BUG`, holding a record with row 0 and
one with row 3, and the unregistered key `NOTE`: the label of `BUG` and the
entry of row 3 are written, nothing else. -/
theorem showOutput_example :
    (showOutput scenarioEnv
      { defaultModule with
        list := [("NOTE".toList,
                  [{ at_ := annotation.zero, instruction := " x".toList,
                     filename := "a.go".toList, Row := 1 }]),
                 ("BUG".toList,
                  [locationInfo.zero,
                   { at_ := { Text := "BUG".toList, Color := "red".toList, Priority := 1 },
                     instruction := " null deref".toList, filename := "a.go".toList,
                     Row := 3 }])] }).writer =
      ["BUG\n".toList, "  -  null deref\t a.go:3\n\n".toList] := by
  decide

/-- The report of the end-to-end scenario: a `BUG` section with the entry of
`a.go:3` and a `TODO` section with the entry of `b.go:1`; the zero-valued
records of the lines without keyword are not written. -/
theorem scenario_report :
    Start scenarioEnv defaultModule =
      Outcome.ok { defaultModule with
        list := [([], [locationInfo.zero, locationInfo.zero]),
                 ("BUG".toList,
                  [{ at_ := { Text := "BUG".toList, Color := "red".toList, Priority := 1 },
                     instruction := " null deref".toList, filename := "a.go".toList,
                     Row := 3 }]),
                 ("TODO".toList,
                  [{ at_ := { Text := "TODO".toList, Color := "yellow".toList, Priority := 1 },
                     instruction := " refactor".toList, filename := "b.go".toList,
                     Row := 1 }])]
        writer := ["BUG\n".toList, "  -  null deref\t a.go:3\n\n".toList,
                   "TODO\n".toList, "  -  refactor\t b.go:1\n\n".toList] } := by
  decide

/-! ## The pattern of `makeRegexp` -/

theorem parseLoop_cons (c : Char) (cs : List Char) (top : Frame) (stack : List Frame) :
    parseLoop (c :: cs) top stack =
      if c = '(' then parseLoop cs { alts := [], cur := [] } (top :: stack)
      else if c = ')' then
        match stack with
        | [] => none
        | parent :: below =>
          parseLoop cs { parent with cur := parent.cur ++ [Regexp.group (closeFrame top)] } below
      else if c = '|' then
        parseLoop cs { alts := top.alts ++ [mkCat top.cur], cur := [] } stack
      else if c = '.' then
        parseLoop cs { top with cur := top.cur ++ [Regexp.anyNotNL] } stack
      else if c ∈ unsupportedMeta then none
      else parseLoop cs { top with cur := top.cur ++ [Regexp.lit c] } stack := by
  rw [parseLoop.eq_def]

theorem parseLoop_plain (s rest : List Char) (top : Frame) (stack : List Frame)
    (hs : plain s) :
    parseLoop (s ++ rest) top stack =
      parseLoop rest { top with cur := top.cur ++ s.map Regexp.lit } stack := by
  induction s generalizing top with
  | nil => simp
  | cons c cs ih =>
    have hc : c ∉ metaChars := hs c (List.mem_cons_self _ _)
    have hcs : plain cs := fun d hd => hs d (List.mem_cons_of_mem _ hd)
    simp only [metaChars, List.mem_cons, List.mem_singleton, List.not_mem_nil, or_false,
      not_or] at hc
    obtain ⟨h1, h2, h3, h4, h5, h6, h7, h8, h9, h10, h11, h12, h13, h14⟩ := hc
    have hun : c ∉ unsupportedMeta := by
      simp [unsupportedMeta, h1, h3, h4, h5, h9, h10, h11, h12, h13, h14]
    rw [List.cons_append, parseLoop_cons]
    simp only [h6, h7, h8, h2, hun, if_false]
    rw [ih _ hcs]
    simp

/-- The alternation of the literal texts `keys`, the last of them being `last`. -/
theorem parseLoop_join (k : GoString) (ks : List GoString) (rest : List Char)
    (alts : List Regexp) (stack : List Frame)
    (hplain : ∀ t ∈ k :: ks, plain t) :
    parseLoop (Join (k :: ks) ['|'] ++ rest) { alts := alts, cur := [] } stack =
      parseLoop rest
        { alts := alts ++ ((k :: ks).dropLast).map (fun t => mkCat (t.map Regexp.lit)),
          cur := ((k :: ks).getLast (List.cons_ne_nil _ _)).map Regexp.lit } stack := by
  induction ks generalizing k alts with
  | nil =>
    simp only [Join, List.dropLast_single, List.map_nil, List.append_nil, List.getLast_singleton]
    rw [parseLoop_plain k rest _ stack (hplain k (List.mem_cons_self _ _))]
    simp
  | cons k2 ks ih =>
    have hk : plain k := hplain k (List.mem_cons_self _ _)
    have hrest : ∀ t ∈ k2 :: ks, plain t := fun t ht => hplain t (List.mem_cons_of_mem _ ht)
    have hjoin : Join (k :: k2 :: ks) ['|'] ++ rest =
        k ++ ('|' :: (Join (k2 :: ks) ['|'] ++ rest)) := by
      simp [Join]
    rw [hjoin, parseLoop_plain k _ _ stack hk, parseLoop_cons]
    simp only [Char.reduceEq, if_false, if_true, List.nil_append]
    rw [ih k2 _ hrest]
    simp [List.dropLast, List.getLast_cons]


theorem closeFrame_altOf (k : GoString) (ks : List GoString) (alts : List GoString) :
    closeFrame
        { alts := alts.map (fun t => mkCat (t.map Regexp.lit)) ++
            ((k :: ks).dropLast).map (fun t => mkCat (t.map Regexp.lit)),
          cur := ((k :: ks).getLast (List.cons_ne_nil _ _)).map Regexp.lit } =
      altOf (alts ++ k :: ks) := by
  induction alts with
  | nil =>
    induction ks generalizing k with
    | nil => simp [closeFrame, altOf]
    | cons k2 ks ih =>
      have h := ih k2
      simp only [closeFrame, List.map_nil, List.nil_append] at h
      have hd : (k :: k2 :: ks).dropLast = k :: (k2 :: ks).dropLast := rfl
      have hl : (k :: k2 :: ks).getLast (List.cons_ne_nil _ _) =
          (k2 :: ks).getLast (List.cons_ne_nil _ _) := rfl
      simp only [closeFrame, List.map_nil, List.nil_append, hd, hl, List.map_cons,
        List.foldr_cons, h, altOf]
  | cons a as ih =>
    simp only [closeFrame, List.map_cons, List.cons_append, List.foldr_cons] at ih ⊢
    rw [ih]
    cases as <;> simp [altOf]

/-- The pattern `makeRegexp` builds from keyword texts without metacharacters
compiles to the alternation of these texts as literals, inside one group. -/
theorem makeRegexp_plain (keywords : List annotation)
    (hplain : ∀ kw ∈ keywords, plain kw.Text) :
    makeRegexp keywords =
      some (Regexp.cat (Regexp.group (altOf (keywords.map (fun kw => kw.Text)))) Regexp.empty) := by
  unfold makeRegexp MustCompile
  cases hkeys : keywords.map (fun kw => kw.Text) with
  | nil =>
    simp only [Join]
    decide
  | cons k ks =>
    have hp : ∀ t ∈ k :: ks, plain t := by
      intro t ht
      rw [← hkeys] at ht
      obtain ⟨kw, hkw, rfl⟩ := List.mem_map.1 ht
      exact hplain kw hkw
    have hpat : "(".toList ++ (Join (k :: ks) "|".toList ++ ")".toList) =
        '(' :: (Join (k :: ks) ['|'] ++ [')']) := rfl
    simp only [hpat]
    rw [parseLoop_cons]
    simp only [if_true]
    rw [parseLoop_join k ks _ _ _ hp, parseLoop_cons]
    simp only [Char.reduceEq, if_false, if_true, List.nil_append]
    have h := closeFrame_altOf k ks []
    simp only [List.map_nil, List.nil_append] at h
    rw [h]
    rfl

theorem matchAt_literal (t s : GoString) :
    matchAt (mkCat (t.map Regexp.lit)) s = literalRest s t := by
  induction t generalizing s with
  | nil => simp [mkCat, matchAt, literalRest]
  | cons c cs ih =>
    cases s with
    | nil => simp [mkCat, matchAt, literalRest, List.isPrefixOf]
    | cons d ds =>
      by_cases h : d = c
      · subst h
        simp [mkCat, matchAt, literalRest, List.isPrefixOf, ih]
      · have h2 : ¬ c = d := fun hc => h hc.symm
        simp [mkCat, matchAt, literalRest, List.isPrefixOf, h, h2]

theorem matchAt_altOf (t : GoString) (ts : List GoString) (s : GoString) :
    matchAt (altOf (t :: ts)) s = (t :: ts).flatMap (literalRest s) := by
  induction ts generalizing t with
  | nil => simp [altOf, matchAt_literal]
  | cons u us ih =>
    simp only [altOf, matchAt, matchAt_literal, ih u]
    simp

theorem flatMap_literalRest_none (ts : List GoString) (s : GoString)
    (h : ts.find? (fun t => t.isPrefixOf s) = none) : ts.flatMap (literalRest s) = [] := by
  induction ts with
  | nil => rfl
  | cons t rest ih =>
    simp only [List.find?_cons] at h
    cases hp : t.isPrefixOf s with
    | true => simp [hp] at h
    | false =>
      simp only [hp] at h
      simp [literalRest, hp, ih h]

theorem flatMap_literalRest_some (ts : List GoString) (s t : GoString)
    (h : ts.find? (fun t => t.isPrefixOf s) = some t) :
    ∃ others, ts.flatMap (literalRest s) = s.drop t.length :: others := by
  induction ts with
  | nil => simp at h
  | cons u rest ih =>
    simp only [List.find?_cons] at h
    cases hp : u.isPrefixOf s with
    | true =>
      simp only [hp, Option.some.injEq] at h
      subst h
      exact ⟨rest.flatMap (literalRest s), by simp [literalRest, hp]⟩
    | false =>
      simp only [hp] at h
      obtain ⟨others, ho⟩ := ih h
      exact ⟨others, by simp [literalRest, hp, ho]⟩

theorem take_of_isPrefixOf (t s : GoString) (h : t.isPrefixOf s = true) :
    s.take (s.length - (s.drop t.length).length) = t := by
  have hp : t <+: s := List.isPrefixOf_iff_prefix.1 h
  obtain ⟨r, rfl⟩ := hp
  simp

theorem flatMap_singleton_id (l : List (List Char)) : l.flatMap (fun t => [t]) = l := by
  induction l with
  | nil => rfl
  | cons a rest ih => simp [List.flatMap_cons, ih]

theorem findLiteral_nil (s : GoString) : findLiteral [] s = [] := by
  induction s with
  | nil => rfl
  | cons c cs ih => simp [findLiteral, ih]

/-- On the alternation of literal texts, `FindString` is the literal search:
the leftmost occurrence of one of the texts, the first text in list order
there. -/
theorem FindString_altOf (texts : List GoString) (s : GoString) :
    FindString (Regexp.cat (Regexp.group (altOf texts)) Regexp.empty) s =
      findLiteral texts s := by
  have hcat : ∀ r u, matchAt (Regexp.cat (Regexp.group r) Regexp.empty) u = matchAt r u := by
    intro r u
    simp only [matchAt]
    exact flatMap_singleton_id _
  induction s with
  | nil => simp [FindString, findLiteral]
  | cons c cs ih =>
    unfold FindString findLiteral
    rw [hcat]
    cases texts with
    | nil => simp [altOf, matchAt, findLiteral_nil]
    | cons t ts =>
      rw [matchAt_altOf]
      cases hf : (t :: ts).find? (fun t => t.isPrefixOf (c :: cs)) with
      | none =>
        rw [flatMap_literalRest_none _ _ hf]
        exact ih
      | some u =>
        obtain ⟨others, ho⟩ := flatMap_literalRest_some _ _ _ hf
        rw [ho]
        have hu : u.isPrefixOf (c :: cs) = true := by
          have := List.find?_some hf
          simpa using this
        exact take_of_isPrefixOf u (c :: cs) hu

theorem findLiteral_of_ne_nil (texts : List GoString) (s : GoString)
    (h : findLiteral texts s ≠ []) :
    findLiteral texts s ∈ texts ∧ findLiteral texts s <:+: s := by
  induction s with
  | nil => simp [findLiteral] at h
  | cons c cs ih =>
    unfold findLiteral at h ⊢
    cases hf : texts.find? (fun t => t.isPrefixOf (c :: cs)) with
    | none =>
      simp only [hf] at h ⊢
      exact ⟨(ih h).1, (ih h).2.trans (List.suffix_cons c cs).isInfix⟩
    | some t =>
      simp only [hf]
      have hp : t.isPrefixOf (c :: cs) = true := by
        have := List.find?_some hf
        simpa using this
      exact ⟨List.mem_of_find?_eq_some hf, (List.isPrefixOf_iff_prefix.1 hp).isInfix⟩

theorem findLiteral_eq_nil_iff (texts : List GoString) (s : GoString)
    (hne : ∀ t ∈ texts, t ≠ []) :
    findLiteral texts s = [] ↔ ∀ t ∈ texts, ¬ t <:+: s := by
  constructor
  · intro h
    induction s with
    | nil =>
      intro t ht hinf
      exact hne t ht (List.infix_nil.1 hinf)
    | cons c cs ih =>
      unfold findLiteral at h
      cases hf : texts.find? (fun t => t.isPrefixOf (c :: cs)) with
      | some t =>
        simp only [hf] at h
        exact absurd h (hne t (List.mem_of_find?_eq_some hf))
      | none =>
        simp only [hf] at h
        intro t ht hinf
        rcases List.infix_cons_iff.1 hinf with hp | hi
        · rw [List.find?_eq_none] at hf
          have := hf t ht
          simp only [Bool.not_eq_true] at this
          rw [← Bool.not_eq_true] at this
          exact this (List.isPrefixOf_iff_prefix.2 hp)
        · exact ih h t ht hi
  · intro h
    by_contra hcon
    obtain ⟨hmem, hinf⟩ := findLiteral_of_ne_nil texts s hcon
    exact h _ hmem hinf

theorem findLiteral_only_occurrence (texts : List GoString) (before k after : GoString)
    (hk : k ∈ texts)
    (honly : ∀ t ∈ texts, ∀ a b, before ++ k ++ after = a ++ t ++ b → a = before ∧ t = k) :
    findLiteral texts (before ++ k ++ after) = k := by
  induction before with
  | nil =>
    cases hline : ([] : GoString) ++ k ++ after with
    | nil =>
      have : k = [] := by
        simp only [List.nil_append, List.append_eq_nil] at hline
        exact hline.1
      simp [findLiteral, this]
    | cons c cs =>
      unfold findLiteral
      cases hf : texts.find? (fun t => t.isPrefixOf (c :: cs)) with
      | none =>
        rw [List.find?_eq_none] at hf
        have := hf k hk
        simp only [Bool.not_eq_true] at this
        rw [← Bool.not_eq_true] at this
        refine absurd (List.isPrefixOf_iff_prefix.2 ?_) this
        exact ⟨after, by simpa using hline⟩
      | some t =>
        simp only
        have hp : t.isPrefixOf (c :: cs) = true := by
          have := List.find?_some hf
          simpa using this
        obtain ⟨b, hb⟩ := List.isPrefixOf_iff_prefix.1 hp
        exact (honly t (List.mem_of_find?_eq_some hf) [] b (by rw [hline, ← hb]; simp)).2
  | cons c bs ih =>
    have hstep : (c :: bs) ++ k ++ after = c :: (bs ++ k ++ after) := by simp
    rw [hstep]
    unfold findLiteral
    cases hf : texts.find? (fun t => t.isPrefixOf (c :: (bs ++ k ++ after))) with
    | some t =>
      have hp : t.isPrefixOf (c :: (bs ++ k ++ after)) = true := by
        have := List.find?_some hf
        simpa using this
      obtain ⟨b, hb⟩ := List.isPrefixOf_iff_prefix.1 hp
      have := (honly t (List.mem_of_find?_eq_some hf) [] b (by rw [hstep, ← hb]; simp)).1
      cases this
    | none =>
      simp only
      apply ih
      intro t ht a b hab
      have := honly t ht (c :: a) b (by rw [hstep, hab]; simp)
      exact ⟨by simpa using this.1, this.2⟩

/-- For a registry whose keyword texts hold no metacharacter, the pattern of
`makeRegexp` compiles, and `FindString` returns the literal search for the
keyword texts: a text is found exactly on the lines that contain a non-empty
keyword text reached by that search, and the text found is a keyword text. -/
theorem makeRegexp_literal_search (keywords : List annotation)
    (hplain : ∀ kw ∈ keywords, plain kw.Text) :
    ∃ re, makeRegexp keywords = some re ∧
      (∀ line, FindString re line = findLiteral (keywords.map (fun kw => kw.Text)) line) ∧
      (∀ line, FindString re line ≠ [] → ∃ kw ∈ keywords, kw.Text = FindString re line) ∧
      ((∀ kw ∈ keywords, kw.Text ≠ []) →
        ∀ line, (FindString re line ≠ [] ↔ ∃ kw ∈ keywords, kw.Text <:+: line)) := by
  refine ⟨_, makeRegexp_plain keywords hplain, fun line => FindString_altOf _ line, ?_, ?_⟩
  · intro line h
    rw [FindString_altOf] at h ⊢
    obtain ⟨kw, hkw, htext⟩ := List.mem_map.1 (findLiteral_of_ne_nil _ _ h).1
    exact ⟨kw, hkw, htext⟩
  · intro hne line
    rw [FindString_altOf, Ne, findLiteral_eq_nil_iff _ _ (by
      intro t ht
      obtain ⟨kw, hkw, rfl⟩ := List.mem_map.1 ht
      exact hne kw hkw)]
    simp

/-! ## C8: keyword texts with metacharacters -/

/-- C8, the code on keywords with metacharacters. With the keyword `T.DO` the
pattern finds `TODO` on the line `TODO`, which does not contain the text
`T.DO`. With the keyword `a|b` the pattern finds `a` on the line `a|b`, not
the keyword text. With the keyword `a)` the pattern does not compile. -/
theorem makeRegexp_keyword_as_pattern :
    New [{ Text := "T.DO".toList, Color := "red".toList, Priority := 1 }] [] ".".toList =
      some (moduleWith ["T.DO"] [] ".") ∧
    FindString (moduleWith ["T.DO"] [] ".").re "TODO".toList = "TODO".toList ∧
    ¬ "T.DO".toList <:+: "TODO".toList ∧
    New [{ Text := "a|b".toList, Color := "red".toList, Priority := 1 }] [] ".".toList =
      some (moduleWith ["a|b"] [] ".") ∧
    FindString (moduleWith ["a|b"] [] ".").re "a|b".toList = "a".toList ∧
    makeRegexp [{ Text := "a)".toList, Color := "red".toList, Priority := 1 }] = none := by
  decide

/-! ## C3: the record of a line -/

/-- C3, the code on the keyword `a|b` and a file whose only line is
`a|b: x`: the pattern finds `a`, which is not registered, the line is
skipped, and the mapping holds no record under `a|b`. -/
theorem metacharacter_keyword_not_recorded :
    New [{ Text := "a|b".toList, Color := "red".toList, Priority := 1 }] [] ".".toList =
      some (moduleWith ["a|b"] [] ".") ∧
    searchKeywordsInFile (tableEnv [("a.go", "a.go", ["a|b: x"])] [])
      (moduleWith ["a|b"] [] ".") "a.go".toList = Except.ok [] := by
  decide

/-- When the pattern finds the registered keyword `k` on a line that holds
one colon, the mapping of the file holds under `k` the record of that line:
the annotation of `k`, the text after the colon, the base name of the file
and the 1-based position of the line, whatever the lines before it are. -/
theorem record_of_found_keyword (env : Env) (ul : Universalister) (path : GoString)
    (info : FileInfo) (pre post : List GoString) (line a rest k : GoString) (kw : annotation)
    (hopen : env.Open path = Except.ok { stat := Except.ok info, lines := pre ++ line :: post })
    (hfind : FindString ul.re line = k) (hk : k ≠ [])
    (hkw : getKeyword ul k = some kw)
    (hline : line = a ++ ':' :: rest) (ha : ':' ∉ a) (hrest : ':' ∉ rest) :
    ∃ l, searchKeywordsInFile env ul path = Except.ok l ∧
      ({ at_ := kw, instruction := rest, filename := info.name,
         Row := (pre.length : Int) + 1 } : locationInfo) ∈ l.get k := by
  have hmatch : getMatchedAnnotationLocations ul line info.name (1 + (pre.length : Int)) =
      Except.ok { at_ := kw, instruction := (SplitAfter line ':').getD 1 [],
                  filename := info.name, Row := 1 + (pre.length : Int) } := by
    rcases getMatched_cases ul line info.name (1 + (pre.length : Int)) with h | h | h
    · exact absurd (hfind ▸ h.1) hk
    · rw [hfind, hkw] at h
      cases h.2.1
    · obtain ⟨_, kw2, hkw2, heq⟩ := h
      rw [hfind, hkw] at hkw2
      cases hkw2
      exact heq
  have hinstr := (instruction_second_piece ul line info.name _ _ (hfind ▸ hk) hmatch).2.1
    a rest hline ha hrest
  simp only at hinstr
  rw [hinstr] at hmatch
  refine ⟨_, searchKeywordsInFile_eq env ul path info _ hopen, ?_⟩
  rw [scanLines_get, lineRecords_append, lineRecords_keep _ _ _ _ _ _ hmatch]
  have htext : kw.Text = k := (getKeyword_some ul k kw hkw).2
  have hrow : (1 : Int) + (pre.length : Int) = (pre.length : Int) + 1 := by ring
  simp [list.get, htext, hrow]

/-- C3 for registries without metacharacters: on a line `before ++ k ++ ":" ++
rest` with `k` registered, no other colon and no other occurrence of a keyword
text, the mapping of the file holds under `k` a record with instruction
`rest`, the 1-based position of the line as row and annotation text `k`. -/
theorem record_of_plain_keyword (env : Env) (ul : Universalister) (path : GoString)
    (info : FileInfo) (pre post : List GoString) (before k rest : GoString)
    (hre : makeRegexp ul.Keywords = some ul.re)
    (hplain : ∀ kw ∈ ul.Keywords, plain kw.Text)
    (hopen : env.Open path =
      Except.ok { stat := Except.ok info, lines := pre ++ (before ++ k ++ ':' :: rest) :: post })
    (hreg : ∃ kw ∈ ul.Keywords, kw.Text = k)
    (hcolon : ':' ∉ before ++ k) (hrest : ':' ∉ rest)
    (honly : ∀ i ∈ List.range ((before ++ k ++ ':' :: rest).length + 1), ∀ kw ∈ ul.Keywords,
      kw.Text <+: (before ++ k ++ ':' :: rest).drop i → i = before.length ∧ kw.Text = k) :
    ∃ l kw, searchKeywordsInFile env ul path = Except.ok l ∧ kw ∈ ul.Keywords ∧ kw.Text = k ∧
      ({ at_ := kw, instruction := rest, filename := info.name,
         Row := (pre.length : Int) + 1 } : locationInfo) ∈ l.get k := by
  obtain ⟨kw0, hkw0, htext0⟩ := hreg
  have honly : ∀ kw ∈ ul.Keywords, ∀ a b,
      before ++ k ++ ':' :: rest = a ++ kw.Text ++ b → a = before ∧ kw.Text = k := by
    intro kw hkw a b hab
    have hlen : a.length ∈ List.range ((before ++ k ++ ':' :: rest).length + 1) := by
      rw [List.mem_range, hab]
      simp only [List.length_append]
      omega
    have hdrop : kw.Text <+: (before ++ k ++ ':' :: rest).drop a.length := by
      rw [hab, List.append_assoc, List.drop_left]
      exact List.prefix_append _ _
    obtain ⟨hi, ht⟩ := honly a.length hlen kw hkw hdrop
    refine ⟨?_, ht⟩
    rw [List.append_assoc, List.append_assoc] at hab
    exact ((List.append_inj hab hi.symm).1).symm
  have hrecomp : ul.re =
      Regexp.cat (Regexp.group (altOf (ul.Keywords.map (fun kw => kw.Text)))) Regexp.empty := by
    have := makeRegexp_plain ul.Keywords hplain
    rw [hre] at this
    exact Option.some.inj this
  have hfind : FindString ul.re (before ++ k ++ ':' :: rest) = k := by
    rw [hrecomp, FindString_altOf]
    apply findLiteral_only_occurrence
    · exact List.mem_map.2 ⟨kw0, hkw0, htext0⟩
    · intro t ht a b hab
      obtain ⟨kw, hkw, rfl⟩ := List.mem_map.1 ht
      exact honly kw hkw a b hab
  have hk : k ≠ [] := by
    intro hnil
    have := (honly kw0 hkw0 (before ++ [':']) rest (by simp [htext0, hnil])).1
    simp at this
  cases hget : getKeyword ul k with
  | none =>
    unfold getKeyword at hget
    rw [List.find?_eq_none] at hget
    have := hget kw0 hkw0
    simp [htext0] at this
  | some kw =>
    obtain ⟨l, hl, hmem⟩ := record_of_found_keyword env ul path info pre post
      (before ++ k ++ ':' :: rest) (before ++ k) rest k kw hopen hfind hk hget
      (by simp) hcolon hrest
    exact ⟨l, kw, hl, (getKeyword_some ul k kw hget).1, (getKeyword_some ul k kw hget).2, hmem⟩

/-- The line `// TODO: fix this` as third line of a file, under the default
keywords: instruction ` fix this`, row 3, annotation text `TODO`. -/
theorem record_of_plain_keyword_example :
    ∃ l kw,
      searchKeywordsInFile
        (tableEnv [("a.go", "a.go", ["package a", "// FIXME", "// TODO: fix this"])] [])
        defaultModule "a.go".toList = Except.ok l ∧
      kw ∈ defaultModule.Keywords ∧ kw.Text = "TODO".toList ∧
      ({ at_ := kw, instruction := " fix this".toList, filename := "a.go".toList,
         Row := 3 } : locationInfo) ∈ l.get "TODO".toList :=
  record_of_plain_keyword
    (tableEnv [("a.go", "a.go", ["package a", "// FIXME", "// TODO: fix this"])] [])
    defaultModule "a.go".toList (fileInfo "a.go") ["package a".toList, "// FIXME".toList] []
    "// ".toList "TODO".toList " fix this".toList (by decide) (by decide) rfl (by decide)
    (by decide) (by decide) (by decide)

/-! ## The bounds of the glob matcher are never reached -/

theorem getEsc_length (chunk : List Char) (c : Char) (rest : List Char)
    (h : getEsc chunk = Except.ok (c, rest)) : rest.length < chunk.length := by
  unfold getEsc at h
  cases chunk with
  | nil => simp at h
  | cons d ds =>
    simp only at h
    split at h
    · cases h
    · split at h
      · cases h
      · rename_i r nchunk heq
        split at h
        · cases h
        · simp only [Except.ok.injEq, Prod.mk.injEq] at h
          rw [← h.2]
          have hlen : (r :: nchunk).length ≤ (d :: ds).length := by
            rw [← heq]
            split <;> simp
          simp only [List.length_cons] at hlen ⊢
          omega

theorem parseRanges_length (fuel : Nat) (chunk : List Char) (nrange : Nat)
    (ranges : List (Char × Char)) (rest : List Char)
    (h : parseRanges fuel chunk nrange = Except.ok (ranges, rest)) :
    rest.length < chunk.length := by
  induction fuel generalizing chunk nrange ranges rest with
  | zero => simp [parseRanges] at h
  | succ fuel ih =>
    rw [parseRanges] at h
    split at h
    · rename_i hclose
      simp only [Except.ok.injEq, Prod.mk.injEq] at h
      rw [← h.2]
      cases chunk with
      | nil => simp at hclose
      | cons d ds => simp
    · split at h
      · cases h
      · rename_i lo afterLo hlo
        have h1 := getEsc_length _ _ _ hlo
        split at h
        · cases h
        · rename_i hi afterHi hhi
          have h2 : afterHi.length ≤ afterLo.length := by
            split at hhi
            · have := getEsc_length _ _ _ hhi
              have ht : afterLo.tail.length ≤ afterLo.length := by simp
              omega
            · simp only [Except.ok.injEq, Prod.mk.injEq] at hhi
              rw [← hhi.2]
          split at h
          · cases h
          · rename_i rs rest2 hrec
            simp only [Except.ok.injEq, Prod.mk.injEq] at h
            have h3 := ih _ _ _ _ hrec
            rw [← h.2]
            omega

theorem parseRanges_fuel (f1 f2 : Nat) (chunk : List Char) (nrange : Nat)
    (h1 : chunk.length < f1) (h2 : chunk.length < f2) :
    parseRanges f1 chunk nrange = parseRanges f2 chunk nrange := by
  induction f1 generalizing f2 chunk nrange with
  | zero => omega
  | succ f1 ih =>
    cases f2 with
    | zero => omega
    | succ f2 =>
      rw [parseRanges, parseRanges]
      split
      · rfl
      · split
        · rfl
        · rename_i lo afterLo hlo
          have hl1 := getEsc_length _ _ _ hlo
          split
          · rfl
          · rename_i hi afterHi hhi
            have hl2 : afterHi.length ≤ afterLo.length := by
              split at hhi
              · have := getEsc_length _ _ _ hhi
                have ht : afterLo.tail.length ≤ afterLo.length := by simp
                omega
              · simp only [Except.ok.injEq, Prod.mk.injEq] at hhi
                rw [← hhi.2]
            rw [ih f2 afterHi (nrange + 1) (by omega) (by omega)]

theorem matchOne_length (c : Char) (chunk after : List Char) (r : Option Char) (fits : Bool)
    (h : matchOne c chunk r = Except.ok (after, fits)) : after.length ≤ chunk.length := by
  unfold matchOne at h
  split at h
  · split at h
    · cases h
    · rename_i ranges after2 hr
      have hlen := parseRanges_length _ _ _ _ _ hr
      have hbody : (if chunk.head? = some '^' then chunk.tail else chunk).length
          ≤ chunk.length := by
        split <;> simp
      split at h
      · simp only [Except.ok.injEq, Prod.mk.injEq] at h
        rw [← h.1]
        omega
      · simp only [Except.ok.injEq, Prod.mk.injEq] at h
        rw [← h.1]
        omega
  · split at h
    · simp only [Except.ok.injEq, Prod.mk.injEq] at h
      rw [h.1]
    · split at h
      · split at h
        · cases h
        · simp only [Except.ok.injEq, Prod.mk.injEq] at h
          rw [← h.1]
          simp
      · simp only [Except.ok.injEq, Prod.mk.injEq] at h
        rw [h.1]

theorem matchChunkLoop_fuel (f1 f2 : Nat) (chunk s : List Char) (failed : Bool)
    (h1 : chunk.length < f1) (h2 : chunk.length < f2) :
    matchChunkLoop f1 chunk s failed = matchChunkLoop f2 chunk s failed := by
  induction f1 generalizing f2 chunk s failed with
  | zero => omega
  | succ f1 ih =>
    cases f2 with
    | zero => omega
    | succ f2 =>
      cases chunk with
      | nil => simp [matchChunkLoop]
      | cons c cs =>
        simp only [List.length_cons] at h1 h2
        rw [matchChunkLoop, matchChunkLoop]
        cases hm : matchOne c cs (if failed then none else s.head?) with
        | error e => rfl
        | ok res =>
          obtain ⟨after, fits⟩ := res
          have hlen := matchOne_length _ _ _ _ _ hm
          simp only
          split
          · exact ih f2 after s true (by omega) (by omega)
          · exact ih f2 after s.tail (!fits) (by omega) (by omega)

/-- The bound of `matchChunk` does not matter once it exceeds the length of
the chunk. -/
theorem matchChunk_fuel (f1 f2 : Nat) (chunk s : List Char)
    (h1 : chunk.length < f1) (h2 : chunk.length < f2) :
    matchChunk f1 chunk s = matchChunk f2 chunk s :=
  matchChunkLoop_fuel f1 f2 chunk s false h1 h2

theorem chunkSplit_cons (inrange : Bool) (c : Char) (cs : List Char) :
    chunkSplit inrange (c :: cs) =
      if c = '\\' then
        match cs with
        | [] => ([c], [])
        | d :: ds => (c :: d :: (chunkSplit inrange ds).1, (chunkSplit inrange ds).2)
      else if c = '[' then (c :: (chunkSplit true cs).1, (chunkSplit true cs).2)
      else if c = ']' then (c :: (chunkSplit false cs).1, (chunkSplit false cs).2)
      else if c = '*' ∧ inrange = false then ([], c :: cs)
      else (c :: (chunkSplit inrange cs).1, (chunkSplit inrange cs).2) := by
  rw [chunkSplit.eq_def]

theorem chunkSplit_length_aux (n : Nat) (inrange : Bool) (p : List Char)
    (hn : p.length ≤ n) :
    (chunkSplit inrange p).1.length + (chunkSplit inrange p).2.length = p.length := by
  induction n generalizing inrange p with
  | zero =>
    have hp : p = [] := List.length_eq_zero.1 (by omega)
    subst hp
    simp [chunkSplit]
  | succ n ih =>
    cases p with
    | nil => simp [chunkSplit]
    | cons c cs =>
      simp only [List.length_cons] at hn
      rw [chunkSplit_cons]
      split
      · cases cs with
        | nil => simp
        | cons d ds =>
          simp only [List.length_cons] at hn ⊢
          have := ih inrange ds (by omega)
          omega
      · split
        · have := ih true cs (by omega)
          simp only [List.length_cons]
          omega
        · split
          · have := ih false cs (by omega)
            simp only [List.length_cons]
            omega
          · split
            · simp
            · have := ih inrange cs (by omega)
              simp only [List.length_cons]
              omega

theorem chunkSplit_length (inrange : Bool) (p : List Char) :
    (chunkSplit inrange p).1.length + (chunkSplit inrange p).2.length = p.length :=
  chunkSplit_length_aux p.length inrange p (Nat.le_refl _)

theorem chunkSplit_chunk_pos (c : Char) (cs : List Char) (hc : c ≠ '*') :
    0 < (chunkSplit false (c :: cs)).1.length := by
  rw [chunkSplit_cons]
  split
  · cases cs <;> simp
  · split
    · simp
    · split
      · simp
      · split
        · rename_i h
          exact absurd h.1 hc
        · simp

/-- Each turn of the loop of `Match` leaves a shorter pattern. -/
theorem scanChunk_rest_length (c : Char) (cs : List Char) :
    (scanChunk (c :: cs)).rest.length < (c :: cs).length := by
  unfold scanChunk
  simp only
  by_cases hc : c = '*'
  · subst hc
    have hdrop : (('*' :: cs).dropWhile (fun x => x == '*')).length ≤ cs.length := by
      rw [List.dropWhile_cons_of_pos (by simp)]
      exact (List.dropWhile_sublist _).length_le
    have := chunkSplit_length false (('*' :: cs).dropWhile (fun x => x == '*'))
    simp only [List.length_cons]
    omega
  · have hdrop : (c :: cs).dropWhile (fun x => x == '*') = c :: cs := by
      rw [List.dropWhile_cons_of_neg (by simpa using hc)]
    rw [hdrop]
    have h1 := chunkSplit_length false (c :: cs)
    have h2 := chunkSplit_chunk_pos c cs hc
    omega

/-- The bound of `matchLoop` does not matter once it exceeds the length of the
pattern: `Match` never stops on the bound. -/
theorem matchLoop_fuel (f1 f2 : Nat) (pattern name : List Char)
    (h1 : pattern.length < f1) (h2 : pattern.length < f2) :
    matchLoop f1 pattern name = matchLoop f2 pattern name := by
  induction f1 generalizing f2 pattern name with
  | zero => omega
  | succ f1 ih =>
    cases f2 with
    | zero => omega
    | succ f2 =>
      cases pattern with
      | nil => simp [matchLoop]
      | cons c cs =>
        have hlen := scanChunk_rest_length c cs
        rw [matchLoop, matchLoop]
        split
        · rfl
        · cases advance (scanChunk (c :: cs)) name with
          | error e => rfl
          | ok res =>
            cases res with
            | none => rfl
            | some t => exact ih f2 _ t (by omega) (by omega)

theorem checkOne_length (c : Char) (chunk after : List Char)
    (h : checkOne c chunk = some after) : after.length ≤ chunk.length := by
  unfold checkOne at h
  split at h
  · split at h
    · cases h
    · rename_i ranges after2 hr
      have hlen := parseRanges_length _ _ _ _ _ hr
      have hbody : (if chunk.head? = some '^' then chunk.tail else chunk).length
          ≤ chunk.length := by
        split <;> simp
      simp only [Option.some.injEq] at h
      rw [← h]
      omega
  · split at h
    · split at h
      · cases h
      · simp only [Option.some.injEq] at h
        rw [← h]
        simp
    · simp only [Option.some.injEq] at h
      rw [h]

theorem checkChunk_fuel (f1 f2 : Nat) (chunk : List Char)
    (h1 : chunk.length < f1) (h2 : chunk.length < f2) :
    checkChunk f1 chunk = checkChunk f2 chunk := by
  induction f1 generalizing f2 chunk with
  | zero => omega
  | succ f1 ih =>
    cases f2 with
    | zero => omega
    | succ f2 =>
      cases chunk with
      | nil => simp [checkChunk]
      | cons c cs =>
        simp only [List.length_cons] at h1 h2
        rw [checkChunk, checkChunk]
        cases hc : checkOne c cs with
        | none => rfl
        | some after =>
          have hlen := checkOne_length _ _ _ hc
          exact ih f2 after (by omega) (by omega)

/-- The bound of `wellFormedLoop` does not matter once it exceeds the length
of the pattern. -/
theorem wellFormedLoop_fuel (f1 f2 : Nat) (pattern : List Char)
    (h1 : pattern.length < f1) (h2 : pattern.length < f2) :
    wellFormedLoop f1 pattern = wellFormedLoop f2 pattern := by
  induction f1 generalizing f2 pattern with
  | zero => omega
  | succ f1 ih =>
    cases f2 with
    | zero => omega
    | succ f2 =>
      cases pattern with
      | nil => simp [wellFormedLoop]
      | cons c cs =>
        have hlen := scanChunk_rest_length c cs
        rw [wellFormedLoop, wellFormedLoop, ih f2 _ (by omega) (by omega)]

/-! ## The order in which Go ranges over a map -/

theorem list.get_eq_of_mem (m : list) (k : GoString) (v : List locationInfo)
    (hnodup : m.keys.Nodup) (hmem : (k, v) ∈ m) : m.get k = v := by
  induction m with
  | nil => simp at hmem
  | cons e rest ih =>
    obtain ⟨k1, w⟩ := e
    simp only [list.keys, List.map_cons, List.nodup_cons] at hnodup
    rcases List.mem_cons.1 hmem with h | h
    · cases h
      simp [list.get]
    · have hne : ¬ k1 = k := by
        intro hk
        apply hnodup.1
        rw [hk]
        exact List.mem_map.2 ⟨(k, v), h, rfl⟩
      simp only [list.get, hne, if_false]
      exact ih hnodup.2 h

theorem list.get_perm (m1 m2 : list) (k : GoString) (hperm : m1.Perm m2)
    (hnodup : m1.keys.Nodup) : m1.get k = m2.get k := by
  have hnodup2 : m2.keys.Nodup := (hperm.map Prod.fst).nodup_iff.1 hnodup
  by_cases hk : k ∈ m1.keys
  · obtain ⟨⟨k1, v⟩, hmem, hfst⟩ := List.mem_map.1 hk
    simp only at hfst
    subst hfst
    rw [list.get_eq_of_mem m1 k1 v hnodup hmem,
      list.get_eq_of_mem m2 k1 v hnodup2 (hperm.mem_iff.1 hmem)]
  · have hk2 : k ∉ m2.keys := fun h => hk ((hperm.map Prod.fst).mem_iff.2 h)
    rw [list.get_of_not_mem_keys m1 k hk, list.get_of_not_mem_keys m2 k hk2]

/-- Whatever the order in which the merge loop ranges over the map of a file,
the sequence stored under each key afterwards is the same. -/
theorem mergeInto_order (acc localList ranged : list) (k : GoString)
    (hperm : localList.Perm ranged) (hnodup : localList.keys.Nodup) :
    (mergeInto acc ranged).get k = (mergeInto acc localList).get k := by
  have hnodup2 : ranged.keys.Nodup := (hperm.map Prod.fst).nodup_iff.1 hnodup
  rw [mergeInto_get _ _ _ hnodup, mergeInto_get _ _ _ hnodup2,
    list.get_perm localList ranged k hperm hnodup]

/-! ## The errors of the traversal are never read -/

theorem walkLoop_ignores_err (env : Env) (ul : Universalister) (entries : List WalkEntry)
    (acc : list) :
    walkLoop env ul (entries.map (fun entry => { entry with err := none })) acc =
      walkLoop env ul entries acc := by
  induction entries generalizing acc with
  | nil => rfl
  | cons entry rest ih =>
    simp only [List.map_cons]
    unfold walkLoop
    rw [walkFn_ignores_err]
    cases walkFn env ul acc entry <;> simp [ih]

theorem walkLoop_withoutErrors (env : Env) (ul : Universalister) (entries : List WalkEntry)
    (acc : list) :
    walkLoop env.withoutErrors ul entries acc = walkLoop env ul entries acc := by
  induction entries generalizing acc with
  | nil => rfl
  | cons entry rest ih =>
    unfold walkLoop
    have hfn : walkFn env.withoutErrors ul acc entry = walkFn env ul acc entry := rfl
    rw [hfn]
    cases walkFn env ul acc entry <;> simp [ih]

/-- The outcome of `searchKeywords` does not depend on the errors the
traversal reports: it is the outcome of the same walk with every error
removed. -/
theorem searchKeywords_ignores_err (env : Env) (ul : Universalister) :
    searchKeywords env.withoutErrors ul = searchKeywords env ul := by
  unfold searchKeywords
  have hwalk : env.withoutErrors.walk ul.Path =
      (env.walk ul.Path).map (fun entry => { entry with err := none }) := rfl
  rw [hwalk, walkLoop_withoutErrors, walkLoop_ignores_err]

end Universalist
